import Mathlib

/-!
USH (Utkarsh's SHell): a shallow embedding of `main.c`.

The C program is embedded function by function.  Every C function keeps its
name.  A C string is the list of its characters before the terminating NUL;
a NULL-terminated `char **` vector is the list of its strings.  Characters are
values of `Char`; the program only compares them with ASCII characters.

The process state threaded through the functions is the current working
directory together with a ghost log of the calls made so far.  The outcomes of
the operating-system calls (`chdir`, `fork`, `execvp`, `waitpid`, `malloc`,
`realloc`) are not decided by the program: they are read from an `OS` record,
so every theorem that quantifies over `OS` holds for every outcome of them.

The C `int` counters (`position`, `bufsize`) are modelled as natural numbers;
they stay below `2^31` for every line shorter than `2^31 - 1024` characters.
`ush_read_input_int` is `ush_read_input` with the counters as 32-bit integers
that wrap, and is proved equal to it on those lines.  Likewise `ush_launch`
takes every `waitpid` call to deliver a status; `ush_launch_rc` is the launcher
with calls that fail and leave the uninitialised `status` untouched, and is
proved equal to `ush_launch` when no call fails.
-/

namespace Ush

/-- The characters of a C string, without the terminating NUL. -/
abbrev CStr := List Char

/-- Ghost log entries: calls of the program's functions, operating-system calls
with their outcome, and text written to the output streams. -/
inductive Event where
  | call_split_line (line : CStr)
  | call_run_command (args : List CStr)
  | call_cd (args : List CStr)
  | call_help (args : List CStr)
  | call_exit (args : List CStr)
  | call_launch (args : List CStr)
  | chdir (path : CStr) (ok : Bool)
  | fork (pid : Int)
  | execvp (file : CStr) (argv : List CStr)
  | waitpid (status : Int)
  | waitpid_failed
  | stdout (text : CStr)
  | stderr (text : CStr)
  | perror (tag : CStr)
  deriving DecidableEq, Repr

/-- The part of the process state the shell can change or observe: the current
working directory and the log of what has happened so far. -/
structure State where
  cwd : CStr
  trace : List Event
  deriving DecidableEq, Repr

/-- Append one entry to the log. -/
def State.log (st : State) (e : Event) : State :=
  { st with trace := st.trace ++ [e] }

/-- The outcomes of the operating-system and library calls, as functions of the
state in which the call is made.

* `chdir st path`: `none` when the call fails (returns non-zero, directory
  unchanged), `some d` when it succeeds and `d` is the new working directory;
* `fork st`: the value `fork()` returns (`0` in the child, negative on failure,
  the child's pid in the parent);
* `execvp st file argv`: `true` when the process image is replaced (the call
  does not return), `false` when it returns `-1`;
* `waitpid st`: the values the successive `waitpid` calls on the child forked
  in state `st` store into `status`; when they are used up the next call never
  returns;
* `WIFEXITED`, `WIFSIGNALED`: the macros of `<sys/wait.h>`;
* `alloc st n`: whether a `malloc`/`realloc` of `n` elements succeeds. -/
structure OS where
  chdir : State → CStr → Option CStr
  fork : State → Int
  execvp : State → CStr → List CStr → Bool
  waitpid : State → List Int
  WIFEXITED : Int → Bool
  WIFSIGNALED : Int → Bool
  alloc : State → Nat → Bool

/-- How a call of a C function ends. -/
inductive Res (α : Type) where
  /-- the function returned `val` -/
  | ret (val : α) (st : State)
  /-- the process terminated through `exit(code)` -/
  | exit (code : Int) (st : State)
  /-- the process image was replaced by a successful `execvp` -/
  | exec (st : State)
  /-- the process is blocked for ever in `waitpid` -/
  | hang (st : State)
  /-- a store outside the allocated buffer (undefined behaviour) -/
  | fault (st : State)
  /-- the iteration bound of the model was reached -/
  | nofuel
  deriving DecidableEq, Repr

/-- Sequencing: continue with `f` when the first call returned. -/
def Res.bind {α β : Type} (r : Res α) (f : α → State → Res β) : Res β :=
  match r with
  | .ret v st => f v st
  | .exit c st => .exit c st
  | .exec st => .exec st
  | .hang st => .hang st
  | .fault st => .fault st
  | .nofuel => .nofuel

/-- The state in which a call ended, when there is one. -/
def Res.state? {α : Type} : Res α → Option State
  | .ret _ st => some st
  | .exit _ st => some st
  | .exec st => some st
  | .hang st => some st
  | .fault st => some st
  | .nofuel => none

def EXIT_SUCCESS : Int := 0
def EXIT_FAILURE : Int := 1

/-- The continuation signal `1`: keep reading commands. -/
def CONTINUE : Int := 1
/-- The continuation signal `0`: leave the input loop. -/
def STOP : Int := 0

/-- `internal_cmds` (main.c:27-31). -/
def internal_cmds : List CStr := ["cd".toList, "help".toList, "exit".toList]

/-- `ush_num_builtins` (main.c:39-41). -/
def ush_num_builtins : Nat := internal_cmds.length

/-- `ush_cd` (main.c:44-54).  `args[1] == NULL` is the vector having no second
element. -/
def ush_cd (os : OS) (st : State) (args : List CStr) : Res Int :=
  let st := st.log (.call_cd args)
  match args with
  | _ :: path :: _ =>
    match os.chdir st path with
    | some d => .ret 1 ({ st with cwd := d }.log (.chdir path true))
    | none => .ret 1 ((st.log (.chdir path false)).log (.perror "ush".toList))
  | _ => .ret 1 (st.log (.stderr "ush: expected argument to \"cd\"\n".toList))

/-- The `for` loop of `ush_help` (main.c:62-64): one line per built-in name. -/
def ush_help.loop (st : State) : List CStr → State
  | [] => st
  | name :: rest =>
    ush_help.loop (st.log (.stdout ("  ".toList ++ name ++ "\n".toList))) rest

/-- `ush_help` (main.c:57-68). -/
def ush_help (_os : OS) (st : State) (args : List CStr) : Res Int :=
  let st := st.log (.call_help args)
  let st := st.log (.stdout "Welcome to USH - Utkarsh's Shell\n".toList)
  let st := st.log (.stdout "Available built-in commands:\n".toList)
  let st := ush_help.loop st internal_cmds
  let st := st.log (.stdout "Use system commands as you would in any UNIX shell.\n".toList)
  .ret 1 st

/-- `ush_exit` (main.c:71-74). -/
def ush_exit (_os : OS) (st : State) (args : List CStr) : Res Int :=
  .ret 0 (st.log (.call_exit args))

/-- The `do ... while` loop of `ush_launch` (main.c:91-93) over the statuses the
successive `waitpid` calls deliver, every call being taken to succeed.
`ush_launch_rc.wait` below is the loop with failing calls. -/
def ush_launch.wait (os : OS) : List Int → State → Res Int
  | [], st => .hang st
  | status :: later, st =>
    let st := st.log (.waitpid status)
    if !os.WIFEXITED status && !os.WIFSIGNALED status then
      ush_launch.wait os later st
    else
      .ret 1 st

/-- `ush_launch` (main.c:77-97). -/
def ush_launch (os : OS) (st : State) (args : List CStr) : Res Int :=
  let st := st.log (.call_launch args)
  let pid := os.fork st
  let st1 := st.log (.fork pid)
  if pid = 0 then
    let st2 := st1.log (.execvp (args.headD []) args)
    if os.execvp st1 (args.headD []) args then
      .exec st2
    else
      .exit EXIT_FAILURE (st2.log (.perror "ush".toList))
  else if pid < 0 then
    .ret 1 (st1.log (.perror "ush".toList))
  else
    ush_launch.wait os (os.waitpid st1) st1

/-- The `waitpid` calls of one `ush_launch` with the return value that the code
ignores (main.c:92).  `uninit` is the indeterminate value the uninitialised
variable `status` (main.c:80) holds before the first call.  `calls` lists the
successive calls: `some s` stores `s` into `status`; `none` fails (returns -1)
and leaves `status` as it was.  When the list is used up the loop never ends:
the next call blocks for ever. -/
structure WaitEnv where
  uninit : Int
  calls : List (Option Int)
  deriving DecidableEq, Repr

/-- The `do ... while` loop of `ush_launch` (main.c:91-93) with failing
`waitpid` calls: the loop condition tests the variable `status`, whatever the
call returned; the third argument is the content of `status` before the
call. -/
def ush_launch_rc.wait (os : OS) : List (Option Int) → Int → State → Res Int
  | [], _, st => .hang st
  | some delivered :: later, _, st =>
    let st := st.log (.waitpid delivered)
    if !os.WIFEXITED delivered && !os.WIFSIGNALED delivered then
      ush_launch_rc.wait os later delivered st
    else
      .ret 1 st
  | none :: later, status, st =>
    let st := st.log .waitpid_failed
    if !os.WIFEXITED status && !os.WIFSIGNALED status then
      ush_launch_rc.wait os later status st
    else
      .ret 1 st

/-- `ush_launch` (main.c:77-97) with failing `waitpid` calls and the
uninitialised `status`: `wenv st` describes the `waitpid` calls on the child
forked in state `st`.  It differs from `ush_launch` in the wait loop only. -/
def ush_launch_rc (os : OS) (wenv : State → WaitEnv) (st : State) (args : List CStr) :
    Res Int :=
  let st := st.log (.call_launch args)
  let pid := os.fork st
  let st1 := st.log (.fork pid)
  if pid = 0 then
    let st2 := st1.log (.execvp (args.headD []) args)
    if os.execvp st1 (args.headD []) args then
      .exec st2
    else
      .exit EXIT_FAILURE (st2.log (.perror "ush".toList))
  else if pid < 0 then
    .ret 1 (st1.log (.perror "ush".toList))
  else
    ush_launch_rc.wait os (wenv st1).calls (wenv st1).uninit st1

/-- `internal_funcs` (main.c:33-37). -/
def internal_funcs : List (OS → State → List CStr → Res Int) :=
  [ush_cd, ush_help, ush_exit]

/-- The `for` loop of `ush_run_command` (main.c:106-110) over the entries
`internal_cmds[i]`, `internal_funcs[i]` still to be compared, followed by the
call of `ush_launch` (main.c:112).  `strcmp(a, b) == 0` is equality. -/
def ush_run_command.loop (os : OS) (st : State) (args : List CStr) (arg0 : CStr) :
    List (CStr × (OS → State → List CStr → Res Int)) → Res Int
  | [] => ush_launch os st args
  | (name, func) :: rest =>
    if arg0 = name then func os st args
    else ush_run_command.loop os st args arg0 rest

/-- `ush_run_command` (main.c:100-113).  `args[0] == NULL` is the empty
vector. -/
def ush_run_command (os : OS) (st : State) (args : List CStr) : Res Int :=
  let st := st.log (.call_run_command args)
  match args with
  | [] => .ret 1 st
  | arg0 :: _ => ush_run_command.loop os st args arg0 (internal_cmds.zip internal_funcs)

/-- `USH_TOK_BUFSIZE` (main.c:201). -/
def USH_TOK_BUFSIZE : Nat := 64

/-- `USH_TOK_DELIM` (main.c:202): the characters of `" \t\r\n\a"`. -/
def USH_TOK_DELIM : List Char := [' ', '\t', '\r', '\n', '\x07']

/-- One call of the C library function `strtok` on the text `s` still to be
scanned: skip the leading delimiters; when nothing is left the call returns
NULL (`none`); otherwise the token runs up to the next delimiter, that
delimiter (if any) is overwritten by NUL and the scan resumes after it. -/
def strtok (s : List Char) (delim : List Char) : Option (CStr × List Char) :=
  match s.dropWhile (fun c => delim.contains c) with
  | [] => none
  | c :: cs =>
    some ((c :: cs).takeWhile (fun c => !delim.contains c),
          ((c :: cs).dropWhile (fun c => !delim.contains c)).drop 1)

/-- The `while (token != NULL)` loop of `ush_split_line` (main.c:214-229) and the
final store of the terminator (main.c:230).  `token` is the result of the last
`strtok` call; `tokens` holds the `position` pointers stored so far; the first
argument bounds the number of iterations. -/
def ush_split_line.loop (os : OS) (st : State) :
    Nat → Option (CStr × List Char) → Nat → Nat → List CStr → Res (List CStr)
  | _, none, bufsize, position, tokens =>
    if position < bufsize then .ret tokens st else .fault st
  | 0, some _, _, _, _ => .nofuel
  | fuel + 1, some (token, rest), bufsize, position, tokens =>
    if position < bufsize then
      let tokens := tokens ++ [token]
      let position := position + 1
      if position ≥ bufsize then
        let bufsize := bufsize + USH_TOK_BUFSIZE
        if os.alloc st bufsize then
          ush_split_line.loop os st fuel (strtok rest USH_TOK_DELIM) bufsize position tokens
        else
          .exit EXIT_FAILURE (st.log (.stderr "ush: allocation error\n".toList))
      else
        ush_split_line.loop os st fuel (strtok rest USH_TOK_DELIM) bufsize position tokens
    else .fault st

/-- `ush_split_line` (main.c:199-232).  Every iteration of the loop consumes at
least one character of the line, so `line.length` iterations are enough. -/
def ush_split_line (os : OS) (st : State) (line : CStr) : Res (List CStr) :=
  let st := st.log (.call_split_line line)
  if os.alloc st USH_TOK_BUFSIZE then
    ush_split_line.loop os st line.length (strtok line USH_TOK_DELIM) USH_TOK_BUFSIZE 0 []
  else
    .exit EXIT_FAILURE (st.log (.stderr "ush: allocation error\n".toList))

/-- The C library function `strstr`: the offset of the first occurrence of
`needle` in `haystack`, `none` (NULL) when there is none. -/
def strstr : List Char → List Char → Option Nat
  | [], needle => if needle = [] then some 0 else none
  | c :: cs, needle =>
    if needle.isPrefixOf (c :: cs) then some 0
    else (strstr cs needle).map (fun i => i + 1)

/-- `ush_handle_logical_ops` (main.c:116-160).  Storing NUL at offset `i` makes
`line` the string `line.take i`; `sep + 2` is the string `line.drop (i + 2)`. -/
def ush_handle_logical_ops (os : OS) (st : State) (line : CStr) : Res Int :=
  let and_sep := strstr line "&&".toList
  let or_sep := strstr line "||".toList
  match and_sep with
  | some i =>
    let first := line.take i
    let second := line.drop (i + 2)
    (ush_split_line os st first).bind fun args1 st =>
    (ush_run_command os st args1).bind fun status st =>
    if status = 1 then
      (ush_split_line os st second).bind fun args2 st =>
      ush_run_command os st args2
    else .ret status st
  | none =>
    match or_sep with
    | some i =>
      let first := line.take i
      let second := line.drop (i + 2)
      (ush_split_line os st first).bind fun args1 st =>
      (ush_run_command os st args1).bind fun status st =>
      if status ≠ 1 then
        (ush_split_line os st second).bind fun args2 st =>
        ush_run_command os st args2
      else .ret status st
    | none =>
      (ush_split_line os st line).bind fun args st =>
      ush_run_command os st args

/-- `USH_BUFSIZE` (main.c:165). -/
def USH_BUFSIZE : Nat := 1024

/-- The `while (1)` loop of `ush_read_input` (main.c:176-195) over the
characters `getchar` will deliver; the empty list is end of input (`EOF`).
`buffer` holds the `position` characters stored so far.  The function returns
the buffer, read as a C string (up to its first NUL), and the input not yet
consumed.  The counters are natural numbers here; `ush_read_input_int.loop`
below is the loop with 32-bit `int` counters, and the two agree on every line
shorter than `2^31 - 1024` characters. -/
def ush_read_input.loop (os : OS) (st : State) :
    List Char → Nat → Nat → List Char → Res (CStr × List Char)
  | [], _, _, _ => .exit EXIT_SUCCESS st
  | c :: input, bufsize, position, buffer =>
    if c = '\n' then
      if position < bufsize then
        .ret ((buffer ++ ['\x00']).takeWhile (fun b => b != '\x00'), input) st
      else .fault st
    else if position < bufsize then
      let buffer := buffer ++ [c]
      let position := position + 1
      if position ≥ bufsize then
        let bufsize := bufsize + USH_BUFSIZE
        if os.alloc st bufsize then
          ush_read_input.loop os st input bufsize position buffer
        else
          .exit EXIT_FAILURE (st.log (.stderr "ush: allocation error\n".toList))
      else
        ush_read_input.loop os st input bufsize position buffer
    else .fault st

/-- `ush_read_input` (main.c:163-196), reading from the standard input
`input`. -/
def ush_read_input (os : OS) (st : State) (input : List Char) : Res (CStr × List Char) :=
  if os.alloc st USH_BUFSIZE then
    ush_read_input.loop os st input USH_BUFSIZE 0 []
  else
    .exit EXIT_FAILURE (st.log (.stderr "ush: allocation error\n".toList))

/-- The value of an `int` expression, reduced to 32 bits in two's complement. -/
def wrap_int (x : Int) : Int := (x + 2147483648) % 4294967296 - 2147483648

/-- The conversion of an `int` to the 64-bit `size_t` argument of `realloc`. -/
def to_size_t (x : Int) : Nat := (x % 18446744073709551616).toNat

/-- The `while (1)` loop of `ush_read_input` (main.c:176-195) with `bufsize` and
`position` as 32-bit `int` variables (main.c:166-167): `position++` and
`bufsize += USH_BUFSIZE` wrap, `position >= bufsize` is the signed comparison,
and `realloc` is asked for `bufsize` converted to `size_t`.  A store
`buffer[position]` is in bounds when `0 <= position < bufsize`. -/
def ush_read_input_int.loop (os : OS) (st : State) :
    List Char → Int → Int → List Char → Res (CStr × List Char)
  | [], _, _, _ => .exit EXIT_SUCCESS st
  | c :: input, bufsize, position, buffer =>
    if c = '\n' then
      if 0 ≤ position ∧ position < bufsize then
        .ret ((buffer ++ ['\x00']).takeWhile (fun b => b != '\x00'), input) st
      else .fault st
    else if 0 ≤ position ∧ position < bufsize then
      let buffer := buffer ++ [c]
      let position := wrap_int (position + 1)
      if position ≥ bufsize then
        let bufsize := wrap_int (bufsize + USH_BUFSIZE)
        if os.alloc st (to_size_t bufsize) then
          ush_read_input_int.loop os st input bufsize position buffer
        else
          .exit EXIT_FAILURE (st.log (.stderr "ush: allocation error\n".toList))
      else
        ush_read_input_int.loop os st input bufsize position buffer
    else .fault st

/-- `ush_read_input` (main.c:163-196) with 32-bit `int` counters. -/
def ush_read_input_int (os : OS) (st : State) (input : List Char) :
    Res (CStr × List Char) :=
  if os.alloc st (to_size_t USH_BUFSIZE) then
    ush_read_input_int.loop os st input USH_BUFSIZE 0 []
  else
    .exit EXIT_FAILURE (st.log (.stderr "ush: allocation error\n".toList))

/-- `ush_main_loop` (main.c:235-246) on the standard input `input`; the first
argument bounds the number of iterations.  `while (status)` continues on every
non-zero status. -/
def ush_main_loop (os : OS) : Nat → State → List Char → Res Unit
  | 0, _, _ => .nofuel
  | fuel + 1, st, input =>
    let st := st.log (.stdout "ush> ".toList)
    (ush_read_input os st input).bind fun read st =>
    (ush_handle_logical_ops os st read.1).bind fun status st =>
    if status ≠ 0 then ush_main_loop os fuel st read.2
    else .ret () st

/-- `main` (main.c:249-254); the value returned is the exit status of the
process.  Every iteration of the loop that comes back consumes at least one
character, so `input.length + 1` iterations are enough. -/
def main (os : OS) (st : State) (input : List Char) : Res Int :=
  let st := st.log (.stdout "Starting USH - Utkarsh's Shell\n".toList)
  (ush_main_loop os (input.length + 1) st input).bind fun _ st =>
  .ret EXIT_SUCCESS st

/-! ## Auxiliary definitions used in the statements -/

/-- A wait status that ends the loop of `ush_launch`: `WIFEXITED` or
`WIFSIGNALED` holds of it. -/
def OS.terminal (os : OS) (status : Int) : Bool :=
  os.WIFEXITED status || os.WIFSIGNALED status

/-- The value `fork()` returns to `ush_launch os st args`. -/
def ush_launch.pid (os : OS) (st : State) (args : List CStr) : Int :=
  os.fork (st.log (.call_launch args))

/-- The wait statuses delivered to `ush_launch os st args` after its fork. -/
def ush_launch.statuses (os : OS) (st : State) (args : List CStr) : List Int :=
  os.waitpid ((st.log (.call_launch args)).log (.fork (ush_launch.pid os st args)))

/-- Membership in the delimiter set of `ush_split_line`. -/
def isDelim (c : Char) : Bool := USH_TOK_DELIM.contains c

/-- Reference tokenizer, from the words of the specification: split the line at
every delimiter character and drop the empty pieces. -/
def split_ref (line : List Char) : List CStr :=
  (line.splitOnP isDelim).filter (fun t => !t.isEmpty)

/-- Every allocation request succeeds. -/
def OS.allocOk (os : OS) : Prop := ∀ (st : State) (n : Nat), os.alloc st n = true

/-- A sample environment seen from the shell process: every call succeeds,
a child gets pid 4242 and is reported stopped once (status `0x137f`) before it
is reported as exited with status 1 (`0x0100`). -/
def sampleOS : OS where
  chdir := fun _ path => some path
  fork := fun _ => 4242
  execvp := fun _ _ _ => true
  waitpid := fun _ => [4991, 256]
  WIFEXITED := fun s => s % 128 == 0
  WIFSIGNALED := fun s => 0 < s % 128 && s % 128 < 127
  alloc := fun _ _ => true

/-- The initial state used in the examples. -/
def sampleState : State := { cwd := "/home".toList, trace := [] }

/-- Tokenize one segment of a line and dispatch the resulting vector: the
sequence `args = ush_split_line(segment); status = ush_run_command(args);` of
`ush_handle_logical_ops`. -/
def dispatch_segment (os : OS) (st : State) (segment : CStr) : Res Int :=
  (ush_split_line os st segment).bind fun args st => ush_run_command os st args

/-- Append several entries to the log. -/
def State.logs (st : State) (es : List Event) : State :=
  { st with trace := st.trace ++ es }

/-- The lines `ush_help` writes to the standard output. -/
def help_output : List Event :=
  [.stdout "Welcome to USH - Utkarsh's Shell\n".toList,
   .stdout "Available built-in commands:\n".toList,
   .stdout "  cd\n".toList,
   .stdout "  help\n".toList,
   .stdout "  exit\n".toList,
   .stdout "Use system commands as you would in any UNIX shell.\n".toList]

/-- The tokens of a line as the specification words them: `MaximalRuns line
tokens` holds when `tokens` lists, in order, the maximal non-empty runs of
non-delimiter characters of `line`.  Either the line consists of delimiters
only and there is no token, or the line is a (possibly empty) run of
delimiters, a non-empty token without delimiter, and a remainder that is empty
or starts with a delimiter and holds the other tokens. -/
inductive MaximalRuns : List Char → List CStr → Prop where
  | done (gap : List Char) :
      (∀ c ∈ gap, isDelim c = true) → MaximalRuns gap []
  | token (gap tok rest : List Char) (toks : List CStr) :
      (∀ c ∈ gap, isDelim c = true) → tok ≠ [] → (∀ c ∈ tok, isDelim c = false) →
      (∀ c ∈ rest.head?, isDelim c = true) → MaximalRuns rest toks →
      MaximalRuns (gap ++ tok ++ rest) (tok :: toks)

/-- A sample environment in which the directory change and the process
creation fail. -/
def failOS : OS where
  chdir := fun _ _ => none
  fork := fun _ => -1
  execvp := fun _ _ _ => false
  waitpid := fun _ => []
  WIFEXITED := fun s => s % 128 == 0
  WIFSIGNALED := fun s => 0 < s % 128 && s % 128 < 127
  alloc := fun _ _ => true

/-- The paths of the `chdir` calls recorded in a log, in order. -/
def chdir_calls : List Event → List CStr
  | [] => []
  | .chdir path _ :: es => path :: chdir_calls es
  | _ :: es => chdir_calls es

/-- The log entry records the call of a built-in handler (`ush_cd`, `ush_help`
or `ush_exit`). -/
def Event.isBuiltinCall : Event → Bool
  | .call_cd _ => true
  | .call_help _ => true
  | .call_exit _ => true
  | _ => false

/-- The entries a call added to the log, from the state `st` it started in and
the state `st'` it ended in. -/
def new_events (st st' : State) : List Event := st'.trace.drop st.trace.length

/-- The C string held in a character buffer: the characters before its first
NUL. -/
def cstr (buffer : List Char) : CStr := buffer.takeWhile (fun b => b != '\x00')

/-- The log entry of the prompt written by `ush_main_loop`. -/
def PROMPT : Event := .stdout "ush> ".toList

/-- The log entry of the banner written by `main`. -/
def BANNER : Event := .stdout "Starting USH - Utkarsh's Shell\n".toList

/-- The standard input that delivers the given complete lines, each followed
by a newline, and then `tail` before end of input. -/
def stdin_of (lines : List (List Char)) (tail : List Char) : List Char :=
  match lines with
  | [] => tail
  | l :: ls => l ++ '\n' :: stdin_of ls tail

/-- The input loop over a sequence of complete lines, in the words of the
specification: display the prompt; at end of input terminate the process with
success status; otherwise evaluate the line, and prompt again if and only if
the signal returned is continue, returning otherwise. -/
def lines_loop (os : OS) : List (List Char) → State → Res Unit
  | [], st => .exit EXIT_SUCCESS (st.log PROMPT)
  | l :: ls, st =>
    (ush_handle_logical_ops os (st.log PROMPT) (cstr l)).bind fun status st' =>
      if status = CONTINUE then lines_loop os ls st' else .ret () st'

/-- The macro `WIFSTOPPED` of `<sys/wait.h>` (glibc): the low byte of the status
is `0x7f`. -/
def WIFSTOPPED (status : Int) : Bool := status % 256 == 127

/-- A sample environment seen from a forked child whose `execvp` fails (the
executable is not found). -/
def childOS : OS where
  chdir := fun _ _ => none
  fork := fun _ => 0
  execvp := fun _ _ _ => false
  waitpid := fun _ => []
  WIFEXITED := fun s => s % 128 == 0
  WIFSIGNALED := fun s => 0 < s % 128 && s % 128 < 127
  alloc := fun _ _ => true

/-- The argument vectors of the `ush_run_command` calls recorded in a log, in
order: the commands dispatched. -/
def dispatches : List Event → List (List CStr)
  | [] => []
  | .call_run_command args :: es => args :: dispatches es
  | _ :: es => dispatches es

/-- A line of `k` tokens "a", each followed by a blank. -/
def tokens_line (k : Nat) : List Char := (List.replicate k "a ".toList).flatten

/-- A sample environment like `sampleOS` whose allocator refuses every request
above `PTRDIFF_MAX` bytes, as real allocators do. -/
def limitedOS : OS where
  chdir := fun _ path => some path
  fork := fun _ => 4242
  execvp := fun _ _ _ => true
  waitpid := fun _ => [4991, 256]
  WIFEXITED := fun s => s % 128 == 0
  WIFSIGNALED := fun s => 0 < s % 128 && s % 128 < 127
  alloc := fun _ n => decide (n ≤ 9223372036854775807)

/-- A sample description of the `waitpid` calls: the first call fails and the
uninitialised `status` holds 0. -/
def failingWait : State → WaitEnv := fun _ => { uninit := 0, calls := [none] }

/-- A sample description of the `waitpid` calls: the child is reported stopped
(status `0x137f`), then the calls fail. -/
def stoppedThenFailing : State → WaitEnv :=
  fun _ => { uninit := 0, calls := [some 4991, none, none] }

/-! ## Properties -/

/-! ### The wait loop and the dispatcher -/

theorem wait_cases (os : OS) (l : List Int) (st : State) :
    (∃ st', ush_launch.wait os l st = .ret 1 st' ∧ ∃ s ∈ l, os.terminal s = true) ∨
    (∃ st', ush_launch.wait os l st = .hang st' ∧ ∀ s ∈ l, os.terminal s = false) := by
  induction l generalizing st with
  | nil => right; exact ⟨st, rfl, by simp⟩
  | cons s l ih =>
    by_cases h : os.terminal s = true
    · left
      refine ⟨st.log (.waitpid s), ?_, s, by simp, h⟩
      simp only [OS.terminal, Bool.or_eq_true] at h
      rcases h with h | h <;> simp [ush_launch.wait, h]
    · have h' : os.terminal s = false := by simpa using h
      have hloop : ush_launch.wait os (s :: l) st =
          ush_launch.wait os l (st.log (.waitpid s)) := by
        simp only [OS.terminal, Bool.or_eq_false_iff] at h'
        simp [ush_launch.wait, h'.1, h'.2]
      rcases ih (st.log (.waitpid s)) with ⟨st', h1, t, ht, htt⟩ | ⟨st', h1, h2⟩
      · left; exact ⟨st', hloop ▸ h1, t, by simp [ht], htt⟩
      · right
        refine ⟨st', hloop ▸ h1, ?_⟩
        intro t ht
        rcases List.mem_cons.mp ht with rfl | ht
        · exact h'
        · exact h2 t ht

theorem launch_child (os : OS) (st : State) (args : List CStr)
    (hpid : ush_launch.pid os st args = 0) :
    ush_launch os st args =
        .exec (((st.log (.call_launch args)).log (.fork 0)).log
          (.execvp (args.headD []) args)) ∨
    ush_launch os st args =
        .exit EXIT_FAILURE ((((st.log (.call_launch args)).log (.fork 0)).log
          (.execvp (args.headD []) args)).log (.perror "ush".toList)) := by
  unfold ush_launch.pid at hpid
  cases hx : os.execvp ((st.log (.call_launch args)).log (.fork 0)) (args.headD []) args with
  | true =>
    left
    unfold ush_launch
    simp only [hpid, hx, if_true]
  | false =>
    right
    unfold ush_launch
    simp only [hpid, hx, if_true, Bool.false_eq_true, if_false]

theorem launch_fork_failed (os : OS) (st : State) (args : List CStr)
    (hpid : ush_launch.pid os st args < 0) :
    ush_launch os st args =
      .ret 1 ((((st.log (.call_launch args)).log (.fork (ush_launch.pid os st args)))).log
        (.perror "ush".toList)) := by
  unfold ush_launch.pid at hpid ⊢
  have h0 : os.fork (st.log (.call_launch args)) ≠ 0 := by omega
  simp [ush_launch, h0, hpid]

theorem launch_parent (os : OS) (st : State) (args : List CStr)
    (hpid : 0 < ush_launch.pid os st args) :
    ush_launch os st args =
      ush_launch.wait os (ush_launch.statuses os st args)
        ((st.log (.call_launch args)).log (.fork (ush_launch.pid os st args))) := by
  unfold ush_launch.statuses
  unfold ush_launch.pid at hpid ⊢
  have h0 : os.fork (st.log (.call_launch args)) ≠ 0 := by omega
  have h1 : ¬ os.fork (st.log (.call_launch args)) < 0 := by omega
  simp [ush_launch, h0, h1]

theorem launch_value (os : OS) (st : State) (args : List CStr) (v : Int) (st' : State)
    (h : ush_launch os st args = .ret v st') : v = 1 := by
  rcases lt_trichotomy (ush_launch.pid os st args) 0 with hpid | hpid | hpid
  · rw [launch_fork_failed os st args hpid] at h
    injection h with hv _
    exact hv.symm
  · rcases launch_child os st args hpid with hs | hs <;> rw [hs] at h <;> cases h
  · rw [launch_parent os st args hpid] at h
    rcases wait_cases os (ush_launch.statuses os st args)
      ((st.log (.call_launch args)).log (.fork (ush_launch.pid os st args))) with
      ⟨s, hs, _⟩ | ⟨s, hs, _⟩
    · rw [hs] at h
      injection h with hv _
      exact hv.symm
    · rw [hs] at h; cases h

theorem run_command_nil (os : OS) (st : State) :
    ush_run_command os st [] = .ret 1 (st.log (.call_run_command [])) := rfl

theorem run_command_cd (os : OS) (st : State) (rest : List CStr) :
    ush_run_command os st ("cd".toList :: rest) =
      ush_cd os (st.log (.call_run_command ("cd".toList :: rest))) ("cd".toList :: rest) := by
  simp [ush_run_command, ush_run_command.loop, internal_cmds, internal_funcs]

theorem run_command_help (os : OS) (st : State) (rest : List CStr) :
    ush_run_command os st ("help".toList :: rest) =
      ush_help os (st.log (.call_run_command ("help".toList :: rest))) ("help".toList :: rest) := by
  simp [ush_run_command, ush_run_command.loop, internal_cmds, internal_funcs]

theorem run_command_exit (os : OS) (st : State) (rest : List CStr) :
    ush_run_command os st ("exit".toList :: rest) =
      ush_exit os (st.log (.call_run_command ("exit".toList :: rest))) ("exit".toList :: rest) := by
  simp [ush_run_command, ush_run_command.loop, internal_cmds, internal_funcs]

theorem run_command_external (os : OS) (st : State) (arg0 : CStr) (rest : List CStr)
    (h : arg0 ∉ internal_cmds) :
    ush_run_command os st (arg0 :: rest) =
      ush_launch os (st.log (.call_run_command (arg0 :: rest))) (arg0 :: rest) := by
  simp only [internal_cmds, List.mem_cons, List.mem_singleton, List.not_mem_nil, or_false,
    not_or] at h
  obtain ⟨h1, h2, h3⟩ := h
  simp only [ush_run_command, ush_run_command.loop, internal_cmds, internal_funcs, List.zip,
    List.zipWith, h1, h2, h3, if_false]

theorem cd_returns (os : OS) (st : State) (args : List CStr) :
    ∃ st', ush_cd os st args = .ret 1 st' := by
  match args with
  | [] => exact ⟨_, rfl⟩
  | [_] => exact ⟨_, rfl⟩
  | a :: path :: more =>
    cases h : os.chdir (st.log (.call_cd (a :: path :: more))) path with
    | none =>
      exact ⟨((st.log (.call_cd (a :: path :: more))).log (.chdir path false)).log
        (.perror "ush".toList), by simp only [ush_cd, h]⟩
    | some d =>
      exact ⟨({ st.log (.call_cd (a :: path :: more)) with cwd := d }).log (.chdir path true),
        by simp only [ush_cd, h]⟩

theorem run_command_value (os : OS) (st : State) (args : List CStr) (v : Int) (st' : State)
    (h : ush_run_command os st args = .ret v st') :
    (args.head? = some "exit".toList → v = 0) ∧ (args.head? ≠ some "exit".toList → v = 1) := by
  cases args with
  | nil =>
    rw [run_command_nil] at h
    injection h with hv _
    simp [← hv]
  | cons arg0 rest =>
    by_cases hcd : arg0 = "cd".toList
    · subst hcd
      rw [run_command_cd] at h
      obtain ⟨s, hs⟩ := cd_returns os (st.log (.call_run_command ("cd".toList :: rest)))
        ("cd".toList :: rest)
      rw [hs] at h
      injection h with hv _
      refine ⟨fun hx => ?_, fun _ => hv.symm⟩
      exact absurd (Option.some.inj hx) (by decide)
    · by_cases hhelp : arg0 = "help".toList
      · subst hhelp
        rw [run_command_help] at h
        simp only [ush_help] at h
        injection h with hv _
        refine ⟨fun hx => ?_, fun _ => hv.symm⟩
        exact absurd (Option.some.inj hx) (by decide)
      · by_cases hexit : arg0 = "exit".toList
        · subst hexit
          rw [run_command_exit] at h
          simp only [ush_exit] at h
          injection h with hv _
          exact ⟨fun _ => hv.symm, fun hx => absurd rfl hx⟩
        · have hext : arg0 ∉ internal_cmds := by
            simp only [internal_cmds, List.mem_cons, List.mem_singleton, List.not_mem_nil,
              or_false, not_or]
            exact ⟨hcd, hhelp, hexit⟩
          rw [run_command_external os st arg0 rest hext] at h
          have := launch_value os _ _ v st' h
          refine ⟨fun hx => ?_, fun _ => this⟩
          simp only [List.head?_cons, Option.some.injEq] at hx
          exact absurd hx hexit

/-- C1: for every argument vector and every outcome of the operating-system
calls, `ush_run_command` returns stop (0) exactly when the vector is non-empty
and its first token is "exit", whatever follows it; every other call that
returns gives continue (1).  It does return continue for the empty vector, for
`cd` and `help`, and for an external command when `fork` fails or when some
`waitpid` call reports an exited or signalled child (whatever the status).  The
only calls that do not return are those of an external command in the forked
child itself (`fork` gave 0: the child execs or exits with failure) and those
whose child never reports termination. -/
theorem ush_run_command_signal (os : OS) (st : State) (args : List CStr) :
    (args.head? = some "exit".toList → ∃ st', ush_run_command os st args = .ret STOP st') ∧
    (∀ v st', ush_run_command os st args = .ret v st' →
      (v = STOP ↔ args.head? = some "exit".toList) ∧
      (v = CONTINUE ↔ args.head? ≠ some "exit".toList)) ∧
    (args = [] ∨ args.head? = some "cd".toList ∨ args.head? = some "help".toList →
      ∃ st', ush_run_command os st args = .ret CONTINUE st') ∧
    (∀ arg0, args.head? = some arg0 → arg0 ∉ internal_cmds →
      (ush_launch.pid os (st.log (.call_run_command args)) args < 0 →
        ∃ st', ush_run_command os st args = .ret CONTINUE st') ∧
      (0 < ush_launch.pid os (st.log (.call_run_command args)) args →
        (∃ s ∈ ush_launch.statuses os (st.log (.call_run_command args)) args,
          os.terminal s = true) →
        ∃ st', ush_run_command os st args = .ret CONTINUE st') ∧
      (0 < ush_launch.pid os (st.log (.call_run_command args)) args →
        (∀ s ∈ ush_launch.statuses os (st.log (.call_run_command args)) args,
          os.terminal s = false) →
        ∃ st', ush_run_command os st args = .hang st') ∧
      (ush_launch.pid os (st.log (.call_run_command args)) args = 0 →
        ∃ st', ush_run_command os st args = .exec st' ∨
          ush_run_command os st args = .exit EXIT_FAILURE st')) := by
  refine ⟨?_, ?_, ?_, ?_⟩
  · intro h
    cases args with
    | nil => simp at h
    | cons arg0 rest =>
      simp only [List.head?_cons, Option.some.injEq] at h
      subst h
      exact ⟨_, by rw [run_command_exit]; rfl⟩
  · intro v st' h
    obtain ⟨h0, h1⟩ := run_command_value os st args v st' h
    by_cases hx : args.head? = some "exit".toList
    · have := h0 hx
      subst this
      exact ⟨⟨fun _ => hx, fun _ => rfl⟩, ⟨fun hc => absurd hc (by decide), fun hc => absurd hx hc⟩⟩
    · have := h1 hx
      subst this
      exact ⟨⟨fun hc => absurd hc (by decide), fun hc => absurd hc hx⟩, ⟨fun _ => hx, fun _ => rfl⟩⟩
  · rintro (h | h | h)
    · subst h; exact ⟨_, run_command_nil os st⟩
    · cases args with
      | nil => simp at h
      | cons arg0 rest =>
        simp only [List.head?_cons, Option.some.injEq] at h
        subst h
        rw [run_command_cd]
        exact cd_returns os _ _
    · cases args with
      | nil => simp at h
      | cons arg0 rest =>
        simp only [List.head?_cons, Option.some.injEq] at h
        subst h
        exact ⟨_, by rw [run_command_help]; rfl⟩
  · intro arg0 h hext
    cases args with
    | nil => simp at h
    | cons a rest =>
      simp only [List.head?_cons, Option.some.injEq] at h
      subst h
      rw [run_command_external os st a rest hext]
      refine ⟨?_, ?_, ?_, ?_⟩
      · intro hpid
        exact ⟨_, launch_fork_failed os _ _ hpid⟩
      · intro hpid hterm
        rw [launch_parent os _ _ hpid]
        rcases wait_cases os (ush_launch.statuses os (st.log (.call_run_command (a :: rest)))
          (a :: rest)) (((st.log (.call_run_command (a :: rest))).log
            (.call_launch (a :: rest))).log (.fork (ush_launch.pid os
              (st.log (.call_run_command (a :: rest))) (a :: rest)))) with
          ⟨s, hs, _⟩ | ⟨s, _, hs⟩
        · exact ⟨s, hs⟩
        · obtain ⟨t, ht, htt⟩ := hterm
          rw [hs t ht] at htt
          cases htt
      · intro hpid hstop
        rw [launch_parent os _ _ hpid]
        rcases wait_cases os (ush_launch.statuses os (st.log (.call_run_command (a :: rest)))
          (a :: rest)) (((st.log (.call_run_command (a :: rest))).log
            (.call_launch (a :: rest))).log (.fork (ush_launch.pid os
              (st.log (.call_run_command (a :: rest))) (a :: rest)))) with
          ⟨s, _, t, ht, htt⟩ | ⟨s, hs, _⟩
        · rw [hstop t ht] at htt
          cases htt
        · exact ⟨s, hs⟩
      · intro hpid
        rcases launch_child os _ _ hpid with hs | hs
        · exact ⟨_, Or.inl hs⟩
        · exact ⟨_, Or.inr hs⟩

/-- Witness for C1 in the sample environment: "exit now" gives stop, and the
external command "ls -l", whose child is reported stopped and then exited with
status 1, gives continue. -/
theorem ush_run_command_signal_witness :
    (∃ st', ush_run_command sampleOS sampleState ["exit".toList, "now".toList] = .ret STOP st') ∧
    (∃ st', ush_run_command sampleOS sampleState ["ls".toList, "-l".toList] =
      .ret CONTINUE st') :=
  ⟨(ush_run_command_signal sampleOS sampleState ["exit".toList, "now".toList]).1 (by decide),
   ((ush_run_command_signal sampleOS sampleState ["ls".toList, "-l".toList]).2.2.2
      "ls".toList (by decide) (by decide)).2.1 (by decide) ⟨256, by decide, by decide⟩⟩

/-! ### The tokenizer -/

theorem split_ref_nil : split_ref [] = [] := by
  simp [split_ref, List.splitOnP_nil]

theorem split_ref_cons_delim (c : Char) (s : List Char) (h : isDelim c = true) :
    split_ref (c :: s) = split_ref s := by
  simp [split_ref, List.splitOnP_cons, h]

theorem split_ref_dropWhile (s : List Char) :
    split_ref (s.dropWhile isDelim) = split_ref s := by
  induction s with
  | nil => rfl
  | cons c s ih =>
    by_cases h : isDelim c = true
    · rw [List.dropWhile_cons_of_pos h, ih, split_ref_cons_delim c s h]
    · rw [List.dropWhile_cons_of_neg h]

theorem splitOnP_run (t : List Char) :
    t.splitOnP isDelim = t.takeWhile (fun c => !isDelim c) ::
      (match t.dropWhile (fun c => !isDelim c) with
       | [] => []
       | _ :: r => r.splitOnP isDelim) := by
  induction t with
  | nil => simp [List.splitOnP_nil]
  | cons c t ih =>
    by_cases h : isDelim c = true
    · simp [List.splitOnP_cons, h]
    · have h' : isDelim c = false := by simpa using h
      rw [List.splitOnP_cons, ih]
      simp [h', List.modifyHead]

theorem split_ref_token (c : Char) (cs : List Char) (h : isDelim c = false) :
    split_ref (c :: cs) = (c :: cs).takeWhile (fun c => !isDelim c) ::
      split_ref (((c :: cs).dropWhile (fun c => !isDelim c)).drop 1) := by
  unfold split_ref
  rw [splitOnP_run (c :: cs)]
  have hne : (c :: cs).takeWhile (fun c => !isDelim c) ≠ [] := by
    simp [List.takeWhile, h]
  cases hd : (c :: cs).dropWhile (fun c => !isDelim c) with
  | nil => simp [List.splitOnP_nil, hne, hd]
  | cons d r => simp [hne, hd]

theorem strtok_none (s : List Char) (h : strtok s USH_TOK_DELIM = none) :
    split_ref s = [] := by
  unfold strtok at h
  have : s.dropWhile isDelim = [] := by
    cases hd : s.dropWhile (fun c => USH_TOK_DELIM.contains c) with
    | nil => exact hd
    | cons c cs => rw [hd] at h; simp at h
  rw [← split_ref_dropWhile, this, split_ref_nil]

theorem strtok_some (s : List Char) (tok rest : List Char)
    (h : strtok s USH_TOK_DELIM = some (tok, rest)) :
    split_ref s = tok :: split_ref rest ∧ rest.length < s.length := by
  unfold strtok at h
  cases hd : s.dropWhile (fun c => USH_TOK_DELIM.contains c) with
  | nil => rw [hd] at h; simp at h
  | cons c cs =>
    rw [hd] at h
    simp only [Option.some.injEq, Prod.mk.injEq] at h
    have hc : isDelim c = false := by
      have := List.head?_dropWhile_not (fun c => USH_TOK_DELIM.contains c) s
      rw [hd] at this
      exact this
    have hlen : (c :: cs).length ≤ s.length := by
      rw [← hd]; exact (List.dropWhile_sublist _).length_le
    have hlen2 : ((c :: cs).dropWhile (fun c => !isDelim c)).length ≤ cs.length := by
      rw [List.dropWhile_cons_of_pos (by simp [hc])]
      exact (List.dropWhile_sublist _).length_le
    refine ⟨?_, ?_⟩
    · have hs : split_ref s = split_ref (c :: cs) := by
        rw [← split_ref_dropWhile s]; exact congrArg split_ref hd
      rw [hs, split_ref_token c cs hc, ← h.1, ← h.2]
      rfl
    · rw [← h.2, List.length_drop]
      have : ((c :: cs).dropWhile (fun c => !USH_TOK_DELIM.contains c)).length ≤ cs.length := hlen2
      simp only [List.length_cons] at hlen
      omega

theorem split_loop_eq (os : OS) (st : State) (halloc : ∀ n, os.alloc st n = true) :
    ∀ (fuel : Nat) (s : List Char) (bufsize position : Nat) (tokens : List CStr),
      s.length ≤ fuel → position < bufsize →
      ush_split_line.loop os st fuel (strtok s USH_TOK_DELIM) bufsize position tokens =
        .ret (tokens ++ split_ref s) st := by
  intro fuel
  induction fuel with
  | zero =>
    intro s bufsize position tokens hs hp
    have : s = [] := List.length_eq_zero.mp (Nat.le_zero.mp hs)
    subst this
    simp [strtok, ush_split_line.loop, hp, split_ref_nil]
  | succ fuel ih =>
    intro s bufsize position tokens hs hp
    cases ht : strtok s USH_TOK_DELIM with
    | none => simp [ush_split_line.loop, hp, strtok_none s ht]
    | some tr =>
      obtain ⟨tok, rest⟩ := tr
      obtain ⟨hsplit, hlen⟩ := strtok_some s tok rest ht
      have hrest : rest.length ≤ fuel := by omega
      simp only [ush_split_line.loop, hp, if_true, halloc]
      by_cases hge : position + 1 ≥ bufsize
      · rw [if_pos hge, ih rest _ _ _ hrest (by simp [USH_TOK_BUFSIZE]; omega), hsplit]
        simp
      · rw [if_neg hge, ih rest _ _ _ hrest (by omega), hsplit]
        simp

theorem split_loop_cases (os : OS) (st : State) :
    ∀ (fuel : Nat) (s : List Char) (bufsize position : Nat) (tokens : List CStr),
      s.length ≤ fuel → position < bufsize →
      ush_split_line.loop os st fuel (strtok s USH_TOK_DELIM) bufsize position tokens =
        .ret (tokens ++ split_ref s) st ∨
      ush_split_line.loop os st fuel (strtok s USH_TOK_DELIM) bufsize position tokens =
        .exit EXIT_FAILURE (st.log (.stderr "ush: allocation error\n".toList)) := by
  intro fuel
  induction fuel with
  | zero =>
    intro s bufsize position tokens hs hp
    have : s = [] := List.length_eq_zero.mp (Nat.le_zero.mp hs)
    subst this
    left
    simp [strtok, ush_split_line.loop, hp, split_ref_nil]
  | succ fuel ih =>
    intro s bufsize position tokens hs hp
    cases ht : strtok s USH_TOK_DELIM with
    | none => left; simp [ush_split_line.loop, hp, strtok_none s ht]
    | some tr =>
      obtain ⟨tok, rest⟩ := tr
      obtain ⟨hsplit, hlen⟩ := strtok_some s tok rest ht
      have hrest : rest.length ≤ fuel := by omega
      simp only [ush_split_line.loop, hp, if_true]
      by_cases hge : position + 1 ≥ bufsize
      · rw [if_pos hge]
        cases ha : os.alloc st (bufsize + USH_TOK_BUFSIZE) with
        | false => right; simp
        | true =>
          simp only [if_true]
          have := ih rest (bufsize + USH_TOK_BUFSIZE) (position + 1) (tokens ++ [tok]) hrest
            (by simp [USH_TOK_BUFSIZE]; omega)
          rw [hsplit]
          simpa using this
      · rw [if_neg hge]
        have := ih rest bufsize (position + 1) (tokens ++ [tok]) hrest (by omega)
        rw [hsplit]
        simpa using this

theorem split_line_cases (os : OS) (st : State) (line : CStr) :
    ush_split_line os st line = .ret (split_ref line) (st.log (.call_split_line line)) ∨
    ush_split_line os st line =
      .exit EXIT_FAILURE ((st.log (.call_split_line line)).log
        (.stderr "ush: allocation error\n".toList)) := by
  unfold ush_split_line
  cases ha : os.alloc (st.log (.call_split_line line)) USH_TOK_BUFSIZE with
  | false => right; simp [ha]
  | true =>
    have := split_loop_cases os (st.log (.call_split_line line)) line.length line
      USH_TOK_BUFSIZE 0 [] (le_refl _) (by simp [USH_TOK_BUFSIZE])
    simpa [ha] using this

theorem split_line_eq (os : OS) (st : State) (line : CStr)
    (halloc : ∀ n, os.alloc (st.log (.call_split_line line)) n = true) :
    ush_split_line os st line = .ret (split_ref line) (st.log (.call_split_line line)) := by
  unfold ush_split_line
  simp only [halloc, if_true]
  rw [split_loop_eq os _ halloc line.length line _ _ _ (le_refl _) (by simp [USH_TOK_BUFSIZE])]
  simp

/-! ### Searching for the operators -/

theorem strstr_some (n : List Char) :
    ∀ (h : List Char) (i : Nat), strstr h n = some i →
      n <+: h.drop i ∧ i ≤ h.length ∧ ∀ j < i, ¬ n <+: h.drop j := by
  intro h
  induction h with
  | nil =>
    intro i hi
    unfold strstr at hi
    split at hi
    · rename_i hn
      injection hi with hi
      subst hi; subst hn
      simp
    · cases hi
  | cons c cs ih =>
    intro i hi
    unfold strstr at hi
    split at hi
    · rename_i hp
      injection hi with hi
      subst hi
      exact ⟨by simpa using List.isPrefixOf_iff_prefix.mp hp, Nat.zero_le _, by simp⟩
    · rename_i hp
      cases hk : strstr cs n with
      | none => rw [hk] at hi; cases hi
      | some k =>
        rw [hk] at hi
        injection hi with hi
        subst hi
        obtain ⟨h1, h2, h3⟩ := ih k hk
        refine ⟨by simpa using h1, by simpa using h2, ?_⟩
        intro j hj
        cases j with
        | zero =>
          intro hpre
          exact hp (List.isPrefixOf_iff_prefix.mpr (by simpa using hpre))
        | succ j =>
          have hjk : j < k := by
            have : j + 1 < k + 1 := hj
            omega
          simpa using h3 j hjk

theorem strstr_none (n : List Char) :
    ∀ (h : List Char), strstr h n = none ↔ ¬ n <:+: h := by
  intro h
  induction h with
  | nil =>
    unfold strstr
    by_cases hn : n = []
    · simp [hn]
    · simp [hn]
  | cons c cs ih =>
    unfold strstr
    rw [List.infix_cons_iff]
    by_cases hp : n.isPrefixOf (c :: cs) = true
    · simp [hp, List.isPrefixOf_iff_prefix.mp hp]
    · have hp' : ¬ n <+: c :: cs := fun hx => hp (List.isPrefixOf_iff_prefix.mpr hx)
      simp [hp, ih, hp']

theorem strstr_split (n h : List Char) (hin : n <:+: h) :
    ∃ left right, h = left ++ n ++ right ∧ strstr h n = some left.length ∧
      h.take left.length = left ∧ h.drop (left.length + n.length) = right ∧
      ∀ j < left.length, ¬ n <+: h.drop j := by
  cases hs : strstr h n with
  | none => exact absurd hin ((strstr_none n h).mp hs)
  | some i =>
    obtain ⟨⟨t, ht⟩, hle, hfirst⟩ := strstr_some n h i hs
    have hdec : h = h.take i ++ n ++ t := by
      rw [List.append_assoc, ht, List.take_append_drop]
    have hlen : (h.take i).length = i := by simp [hle]
    refine ⟨h.take i, t, hdec, by rw [hlen], by rw [hlen], ?_, by rw [hlen]; exact hfirst⟩
    rw [hlen]
    conv_lhs => rw [hdec]
    rw [List.append_assoc, List.drop_append_eq_append_drop, List.drop_append_eq_append_drop]
    simp [hlen]

theorem strstr_first (n left right : List Char)
    (hfirst : ∀ j < left.length, ¬ n <+: (left ++ n ++ right).drop j) :
    strstr (left ++ n ++ right) n = some left.length := by
  have hin : n <:+: left ++ n ++ right := ⟨left, right, rfl⟩
  cases hs : strstr (left ++ n ++ right) n with
  | none => exact absurd hin ((strstr_none n _).mp hs)
  | some k =>
    obtain ⟨hk, _, hmin⟩ := strstr_some n _ k hs
    have hpre : n <+: (left ++ n ++ right).drop left.length := by
      rw [List.append_assoc, List.drop_left]
      exact List.prefix_append _ _
    rcases lt_trichotomy k left.length with hlt | heq | hgt
    · exact absurd hk (hfirst k hlt)
    · rw [heq]
    · exact absurd hpre (hmin _ hgt)

/-! ### The logical operators -/

theorem res_bind_assoc {α β γ : Type} (r : Res α) (f : α → State → Res β)
    (g : β → State → Res γ) :
    (r.bind f).bind g = r.bind (fun a s => (f a s).bind g) := by
  cases r <;> rfl

theorem dispatch_segment_eq (os : OS) (st : State) (segment : CStr)
    (halloc : ∀ n, os.alloc (st.log (.call_split_line segment)) n = true) :
    dispatch_segment os st segment =
      ush_run_command os (st.log (.call_split_line segment)) (split_ref segment) := by
  unfold dispatch_segment
  rw [split_line_eq os st segment halloc]
  rfl

theorem handle_and_eq (os : OS) (st : State) (line : CStr) (i : Nat)
    (hs : strstr line "&&".toList = some i) :
    ush_handle_logical_ops os st line =
      (dispatch_segment os st (line.take i)).bind fun status st1 =>
        if status = 1 then dispatch_segment os st1 (line.drop (i + 2)) else .ret status st1 := by
  unfold ush_handle_logical_ops dispatch_segment
  simp only [hs]
  rw [res_bind_assoc]

theorem handle_or_eq (os : OS) (st : State) (line : CStr) (i : Nat)
    (hand : strstr line "&&".toList = none) (hs : strstr line "||".toList = some i) :
    ush_handle_logical_ops os st line =
      (dispatch_segment os st (line.take i)).bind fun status st1 =>
        if status ≠ 1 then dispatch_segment os st1 (line.drop (i + 2)) else .ret status st1 := by
  unfold ush_handle_logical_ops dispatch_segment
  simp only [hand, hs]
  rw [res_bind_assoc]

theorem handle_plain_eq (os : OS) (st : State) (line : CStr)
    (hand : strstr line "&&".toList = none) (hor : strstr line "||".toList = none) :
    ush_handle_logical_ops os st line = dispatch_segment os st line := by
  unfold ush_handle_logical_ops dispatch_segment
  simp only [hand, hor]

theorem log_eq_logs (st : State) (e : Event) : st.log e = st.logs [e] := rfl

theorem logs_logs (st : State) (es fs : List Event) :
    (st.logs es).logs fs = st.logs (es ++ fs) := by
  simp [State.logs, List.append_assoc]

theorem logs_cwd (st : State) (es : List Event) : (st.logs es).cwd = st.cwd := rfl

theorem logs_trace (st : State) (es : List Event) : (st.logs es).trace = st.trace ++ es := rfl

theorem help_eq (os : OS) (st : State) (args : List CStr) :
    ush_help os st args = .ret 1 (st.logs (.call_help args :: help_output)) := by
  simp [ush_help, ush_help.loop, internal_cmds, log_eq_logs, logs_logs, help_output]

theorem exit_eq (os : OS) (st : State) (args : List CStr) :
    ush_exit os st args = .ret 0 (st.logs [.call_exit args]) := rfl

/-- C2: for every line that contains "&&", whether or not "||" occurs in it,
`ush_handle_logical_ops` tokenizes and dispatches the text before the first
"&&"; if that returns continue it tokenizes and dispatches the text after the
operator and returns that signal, and if it returns stop nothing more is
tokenized or dispatched and stop is returned.  For "help && exit" both segments
run and the result is stop. -/
theorem handle_logical_ops_and (os : OS) (st : State) :
    (∀ line : CStr, "&&".toList <:+: line →
      ∃ left right, line = left ++ "&&".toList ++ right ∧
        (∀ j < left.length, ¬ "&&".toList <+: line.drop j) ∧
        ush_handle_logical_ops os st line =
          ((dispatch_segment os st left).bind fun status st1 =>
            if status = CONTINUE then dispatch_segment os st1 right else .ret status st1) ∧
        (∀ st1, dispatch_segment os st left = .ret CONTINUE st1 →
          ush_handle_logical_ops os st line = dispatch_segment os st1 right) ∧
        (∀ st1, dispatch_segment os st left = .ret STOP st1 →
          ush_handle_logical_ops os st line = .ret STOP st1)) ∧
    (os.allocOk →
      ush_handle_logical_ops os st "help && exit".toList =
        .ret STOP (st.logs ([.call_split_line "help ".toList,
          .call_run_command ["help".toList], .call_help ["help".toList]] ++ help_output ++
          [.call_split_line " exit".toList, .call_run_command ["exit".toList],
           .call_exit ["exit".toList]]))) := by
  constructor
  · intro line hin
    obtain ⟨left, right, hline, hs, htake, hdrop, hfirst⟩ := strstr_split _ line hin
    have heq := handle_and_eq os st line left.length hs
    rw [htake] at heq
    have hdrop' : line.drop (left.length + 2) = right := hdrop
    rw [hdrop'] at heq
    refine ⟨left, right, hline, hfirst, heq, ?_, ?_⟩
    · intro st1 h1
      rw [heq, h1]
      rfl
    · intro st1 h1
      rw [heq, h1]
      rfl
  · intro h
    have hs : strstr "help && exit".toList "&&".toList = some 5 := by decide
    have h1 : split_ref (List.take 5 "help && exit".toList) = ["help".toList] := by decide
    have h2 : split_ref (List.drop (5 + 2) "help && exit".toList) = ["exit".toList] := by decide
    rw [handle_and_eq os st _ 5 hs, dispatch_segment_eq os st _ (fun n => h _ n), h1,
      run_command_help, help_eq]
    simp only [Res.bind, if_true]
    rw [dispatch_segment_eq os _ _ (fun n => h _ n), h2, run_command_exit, exit_eq]
    simp only [log_eq_logs, logs_logs]
    rfl

/-- Witness for C2: the sample environment allocates successfully, and
"cd /tmp && exit" contains the operator. -/
theorem handle_logical_ops_and_witness :
    ush_handle_logical_ops sampleOS sampleState "help && exit".toList =
        .ret STOP (sampleState.logs ([.call_split_line "help ".toList,
          .call_run_command ["help".toList], .call_help ["help".toList]] ++ help_output ++
          [.call_split_line " exit".toList, .call_run_command ["exit".toList],
           .call_exit ["exit".toList]])) ∧
    ∃ left right, "cd /tmp && exit".toList = left ++ "&&".toList ++ right ∧
        (∀ j < left.length, ¬ "&&".toList <+: "cd /tmp && exit".toList.drop j) ∧
        ush_handle_logical_ops sampleOS sampleState "cd /tmp && exit".toList =
          ((dispatch_segment sampleOS sampleState left).bind fun status st1 =>
            if status = CONTINUE then dispatch_segment sampleOS st1 right
            else .ret status st1) ∧
        (∀ st1, dispatch_segment sampleOS sampleState left = .ret CONTINUE st1 →
          ush_handle_logical_ops sampleOS sampleState "cd /tmp && exit".toList =
            dispatch_segment sampleOS st1 right) ∧
        (∀ st1, dispatch_segment sampleOS sampleState left = .ret STOP st1 →
          ush_handle_logical_ops sampleOS sampleState "cd /tmp && exit".toList =
            .ret STOP st1) :=
  ⟨(handle_logical_ops_and sampleOS sampleState).2 (fun _ _ => rfl),
   (handle_logical_ops_and sampleOS sampleState).1 "cd /tmp && exit".toList (by decide)⟩

theorem handle_or_split (os : OS) (st : State) (left right : CStr)
    (hand : ¬ "&&".toList <:+: left ++ "||".toList ++ right)
    (hfirst : ∀ j < left.length, ¬ "||".toList <+: (left ++ "||".toList ++ right).drop j) :
    ush_handle_logical_ops os st (left ++ "||".toList ++ right) =
      (dispatch_segment os st left).bind fun status st1 =>
        if status ≠ 1 then dispatch_segment os st1 right else .ret status st1 := by
  have hs := strstr_first "||".toList left right hfirst
  have hn := (strstr_none "&&".toList _).mpr hand
  rw [handle_or_eq os st _ left.length hn hs]
  have h1 : (left ++ "||".toList ++ right).take left.length = left := by
    rw [List.append_assoc, List.take_left]
  have h2 : (left ++ "||".toList ++ right).drop (left.length + 2) = right := by
    have : left.length + 2 = (left ++ "||".toList).length := by simp
    rw [this, List.drop_left]
  rw [h1, h2]

theorem handle_and_split (os : OS) (st : State) (left right : CStr)
    (hfirst : ∀ j < left.length, ¬ "&&".toList <+: (left ++ "&&".toList ++ right).drop j) :
    ush_handle_logical_ops os st (left ++ "&&".toList ++ right) =
      (dispatch_segment os st left).bind fun status st1 =>
        if status = 1 then dispatch_segment os st1 right else .ret status st1 := by
  have hs := strstr_first "&&".toList left right hfirst
  rw [handle_and_eq os st _ left.length hs]
  have h1 : (left ++ "&&".toList ++ right).take left.length = left := by
    rw [List.append_assoc, List.take_left]
  have h2 : (left ++ "&&".toList ++ right).drop (left.length + 2) = right := by
    have : left.length + 2 = (left ++ "&&".toList).length := by simp
    rw [this, List.drop_left]
  rw [h1, h2]

theorem dispatch_segment_value (os : OS) (st : State) (segment : CStr) (v : Int)
    (st1 : State) (h : dispatch_segment os st segment = .ret v st1) :
    ∃ args st0, ush_split_line os st segment = .ret args st0 ∧
      ush_run_command os st0 args = .ret v st1 := by
  unfold dispatch_segment at h
  cases hs : ush_split_line os st segment with
  | ret args st0 =>
    rw [hs] at h
    exact ⟨args, st0, rfl, h⟩
  | exit c s => rw [hs] at h; cases h
  | exec s => rw [hs] at h; cases h
  | hang s => rw [hs] at h; cases h
  | fault s => rw [hs] at h; cases h
  | nofuel => rw [hs] at h; cases h

/-- C4: for every line `left ++ "||" ++ right` that contains no "&&" and whose
first "||" is the one shown, `ush_handle_logical_ops` tokenizes and dispatches
`left`, and tokenizes and dispatches `right` exactly when the signal of `left`
is not continue; the value returned is the signal of the last segment
dispatched.  Hence when the first token of `left` is anything but "exit" and
its dispatch returns (external commands that fail included), nothing more is
dispatched and the result is continue.  Every line that contains "||" has this
form. -/
theorem handle_logical_ops_or (os : OS) (st : State) (left right : CStr)
    (hand : ¬ "&&".toList <:+: left ++ "||".toList ++ right)
    (hfirst : ∀ j < left.length, ¬ "||".toList <+: (left ++ "||".toList ++ right).drop j) :
    ush_handle_logical_ops os st (left ++ "||".toList ++ right) =
      ((dispatch_segment os st left).bind fun status st1 =>
        if status ≠ CONTINUE then dispatch_segment os st1 right else .ret status st1) ∧
    (∀ st1, dispatch_segment os st left = .ret CONTINUE st1 →
      ush_handle_logical_ops os st (left ++ "||".toList ++ right) = .ret CONTINUE st1) ∧
    (∀ v st1, dispatch_segment os st left = .ret v st1 → v ≠ CONTINUE →
      ush_handle_logical_ops os st (left ++ "||".toList ++ right) =
        dispatch_segment os st1 right) ∧
    (∀ args st0 v st1, ush_split_line os st left = .ret args st0 →
      args.head? ≠ some "exit".toList → ush_run_command os st0 args = .ret v st1 →
      ush_handle_logical_ops os st (left ++ "||".toList ++ right) = .ret CONTINUE st1) ∧
    (∀ line : CStr, "||".toList <:+: line →
      ∃ l r, line = l ++ "||".toList ++ r ∧
        ∀ j < l.length, ¬ "||".toList <+: (l ++ "||".toList ++ r).drop j) := by
  have heq := handle_or_split os st left right hand hfirst
  refine ⟨heq, ?_, ?_, ?_, ?_⟩
  · intro st1 h1
    rw [heq, h1]
    rfl
  · intro v st1 h1 hv
    rw [heq, h1]
    simp only [Res.bind]
    exact if_pos hv
  · intro args st0 v st1 hsplit hhead hrun
    have hv : v = 1 := (run_command_value os st0 args v st1 hrun).2 hhead
    subst hv
    have h1 : dispatch_segment os st left = .ret 1 st1 := by
      unfold dispatch_segment
      rw [hsplit]
      exact hrun
    rw [heq, h1]
    rfl
  · intro line hin
    obtain ⟨l, r, hline, _, _, _, hf⟩ := strstr_split _ line hin
    exact ⟨l, r, hline, by rw [← hline]; exact hf⟩

/-- Witness for C4: in the sample environment the external command of
"false || help" is waited for (stopped, then exited with status 1), the result
is continue and `help` is never dispatched. -/
theorem handle_logical_ops_or_witness :
    ush_handle_logical_ops sampleOS sampleState
        ("false ".toList ++ "||".toList ++ " help".toList) =
      .ret CONTINUE (sampleState.logs [.call_split_line "false ".toList,
        .call_run_command ["false".toList], .call_launch ["false".toList],
        .fork 4242, .waitpid 4991, .waitpid 256]) :=
  (handle_logical_ops_or sampleOS sampleState "false ".toList " help".toList
    (by decide) (by decide)).2.2.2.1 ["false".toList]
      (sampleState.logs [.call_split_line "false ".toList]) 1 _
      (by decide) (by decide) (by decide)

/-- C3, as the code behaves: for every line `left ++ "||" ++ right` without
"&&", split at its first "||", whose left segment tokenizes to a vector with
first token "exit", `ush_handle_logical_ops` dispatches the left segment,
which calls `ush_exit` and returns stop, and then, stop not being the value 1,
tokenizes and dispatches the right segment and returns its signal.  For
"exit || help" the `help` built-in runs and the result is continue. -/
theorem or_after_exit_runs_right (os : OS) (st : State) :
    (∀ (left right : CStr) (args : List CStr) (st0 : State),
      ¬ "&&".toList <:+: left ++ "||".toList ++ right →
      (∀ j < left.length, ¬ "||".toList <+: (left ++ "||".toList ++ right).drop j) →
      ush_split_line os st left = .ret args st0 →
      args.head? = some "exit".toList →
      dispatch_segment os st left =
        .ret STOP ((st0.log (.call_run_command args)).log (.call_exit args)) ∧
      ush_handle_logical_ops os st (left ++ "||".toList ++ right) =
        dispatch_segment os ((st0.log (.call_run_command args)).log (.call_exit args)) right) ∧
    (os.allocOk →
      ush_handle_logical_ops os st "exit || help".toList =
        .ret CONTINUE (st.logs ([.call_split_line "exit ".toList,
          .call_run_command ["exit".toList], .call_exit ["exit".toList],
          .call_split_line " help".toList, .call_run_command ["help".toList],
          .call_help ["help".toList]] ++ help_output))) := by
  constructor
  · intro left right args st0 hand hfirst hsplit hexit
    have hleft : dispatch_segment os st left =
        .ret STOP ((st0.log (.call_run_command args)).log (.call_exit args)) := by
      unfold dispatch_segment
      rw [hsplit]
      cases args with
      | nil => simp at hexit
      | cons a rest =>
        simp only [List.head?_cons, Option.some.injEq] at hexit
        subst hexit
        simp only [Res.bind]
        rw [run_command_exit]
        rfl
    refine ⟨hleft, ?_⟩
    rw [handle_or_split os st left right hand hfirst, hleft]
    rfl
  · intro h
    have hn : strstr "exit || help".toList "&&".toList = none := by decide
    have hs : strstr "exit || help".toList "||".toList = some 5 := by decide
    have h1 : split_ref (List.take 5 "exit || help".toList) = ["exit".toList] := by decide
    have h2 : split_ref (List.drop (5 + 2) "exit || help".toList) = ["help".toList] := by decide
    rw [handle_or_eq os st _ 5 hn hs, dispatch_segment_eq os st _ (fun n => h _ n), h1,
      run_command_exit, exit_eq]
    simp only [Res.bind]
    rw [if_pos (by decide), dispatch_segment_eq os _ _ (fun n => h _ n), h2, run_command_help,
      help_eq]
    simp only [log_eq_logs, logs_logs]
    rfl

/-- Witness for C3 as amended, in the sample environment. -/
theorem or_after_exit_runs_right_witness :
    ush_handle_logical_ops sampleOS sampleState "exit || help".toList =
        .ret CONTINUE (sampleState.logs ([.call_split_line "exit ".toList,
          .call_run_command ["exit".toList], .call_exit ["exit".toList],
          .call_split_line " help".toList, .call_run_command ["help".toList],
          .call_help ["help".toList]] ++ help_output)) ∧
    ush_handle_logical_ops sampleOS sampleState
        ("exit now ".toList ++ "||".toList ++ " exit".toList) =
      dispatch_segment sampleOS (((sampleState.logs [.call_split_line "exit now ".toList]).log
        (.call_run_command ["exit".toList, "now".toList])).log
        (.call_exit ["exit".toList, "now".toList])) " exit".toList :=
  ⟨(or_after_exit_runs_right sampleOS sampleState).2 (fun _ _ => rfl),
   ((or_after_exit_runs_right sampleOS sampleState).1 "exit now ".toList " exit".toList
      ["exit".toList, "now".toList] (sampleState.logs [.call_split_line "exit now ".toList])
      (by decide) (by decide) (by decide) (by decide)).2⟩

/-- Counterexample to C3 as stated: on "exit || help" the right segment is
dispatched (the log shows the call of `ush_help`) and the value returned is
continue, not stop. -/
theorem exit_or_help_continues :
    ush_handle_logical_ops sampleOS sampleState "exit || help".toList =
        .ret CONTINUE (sampleState.logs ([.call_split_line "exit ".toList,
          .call_run_command ["exit".toList], .call_exit ["exit".toList],
          .call_split_line " help".toList, .call_run_command ["help".toList],
          .call_help ["help".toList]] ++ help_output)) ∧
    ¬ ∃ st', ush_handle_logical_ops sampleOS sampleState "exit || help".toList =
        .ret STOP st' := by
  have h : ush_handle_logical_ops sampleOS sampleState "exit || help".toList =
        .ret CONTINUE (sampleState.logs ([.call_split_line "exit ".toList,
          .call_run_command ["exit".toList], .call_exit ["exit".toList],
          .call_split_line " help".toList, .call_run_command ["help".toList],
          .call_help ["help".toList]] ++ help_output)) := by decide
  refine ⟨h, ?_⟩
  rintro ⟨st', hst⟩
  rw [h] at hst
  injection hst with hv _
  exact absurd hv (by decide)

/-- C9, as the code behaves: `ush_handle_logical_ops` splits a line at the
first occurrence of "&&" whenever the line contains "&&" anywhere, otherwise
at the first occurrence of "||", and otherwise dispatches the whole line; only
that one occurrence is honored, each segment being tokenized and dispatched as
one command.  For "a || b && c" the split is at the "&&", with left segment
"a || b " and right segment " c". -/
theorem handle_logical_ops_split (os : OS) (st : State) (line : CStr) :
    (∀ left right : CStr, line = left ++ "&&".toList ++ right →
      (∀ j < left.length, ¬ "&&".toList <+: line.drop j) →
      ush_handle_logical_ops os st line =
        ((dispatch_segment os st left).bind fun status st1 =>
          if status = CONTINUE then dispatch_segment os st1 right else .ret status st1)) ∧
    (∀ left right : CStr, ¬ "&&".toList <:+: line → line = left ++ "||".toList ++ right →
      (∀ j < left.length, ¬ "||".toList <+: line.drop j) →
      ush_handle_logical_ops os st line =
        ((dispatch_segment os st left).bind fun status st1 =>
          if status ≠ CONTINUE then dispatch_segment os st1 right else .ret status st1)) ∧
    (¬ "&&".toList <:+: line → ¬ "||".toList <:+: line →
      ush_handle_logical_ops os st line = dispatch_segment os st line) ∧
    ush_handle_logical_ops os st "a || b && c".toList =
      ((dispatch_segment os st "a || b ".toList).bind fun status st1 =>
        if status = CONTINUE then dispatch_segment os st1 " c".toList
        else .ret status st1) := by
  refine ⟨?_, ?_, ?_, ?_⟩
  · intro left right hline hfirst
    subst hline
    exact handle_and_split os st left right hfirst
  · intro left right hand hline hfirst
    subst hline
    exact handle_or_split os st left right hand hfirst
  · intro hand hor
    exact handle_plain_eq os st line ((strstr_none _ _).mpr hand) ((strstr_none _ _).mpr hor)
  · exact handle_and_split os st "a || b ".toList " c".toList (by decide)

/-- Witness for C9 as amended: the line "a || b && c" is split at its "&&",
and the line "a || b", which has no "&&", at its "||". -/
theorem handle_logical_ops_split_witness :
    ush_handle_logical_ops sampleOS sampleState "a || b && c".toList =
      ((dispatch_segment sampleOS sampleState "a || b ".toList).bind fun status st1 =>
        if status = CONTINUE then dispatch_segment sampleOS st1 " c".toList
        else .ret status st1) ∧
    ush_handle_logical_ops sampleOS sampleState "a || b".toList =
      ((dispatch_segment sampleOS sampleState "a ".toList).bind fun status st1 =>
        if status ≠ CONTINUE then dispatch_segment sampleOS st1 " b".toList
        else .ret status st1) :=
  ⟨(handle_logical_ops_split sampleOS sampleState "a || b && c".toList).1
      "a || b ".toList " c".toList (by decide) (by decide),
   (handle_logical_ops_split sampleOS sampleState "a || b".toList).2.1
      "a ".toList " b".toList (by decide) (by decide) (by decide)⟩

/-- Counterexample to C9 as stated: on "a || b && c" the earliest operator is
the "||", yet the segments tokenized are "a || b " and " c" (the split is at
the "&&"); the segment "a " is never tokenized, and the outcome differs from
that of a split at the "||". -/
theorem earliest_operator_not_honored :
    ush_handle_logical_ops sampleOS sampleState "a || b && c".toList =
      .ret CONTINUE (sampleState.logs [.call_split_line "a || b ".toList,
        .call_run_command ["a".toList, "||".toList, "b".toList],
        .call_launch ["a".toList, "||".toList, "b".toList],
        .fork 4242, .waitpid 4991, .waitpid 256,
        .call_split_line " c".toList, .call_run_command ["c".toList],
        .call_launch ["c".toList], .fork 4242, .waitpid 4991, .waitpid 256]) ∧
    ush_handle_logical_ops sampleOS sampleState "a || b && c".toList ≠
      ((dispatch_segment sampleOS sampleState "a ".toList).bind fun status st1 =>
        if status ≠ CONTINUE then dispatch_segment sampleOS st1 " b && c".toList
        else .ret status st1) := by
  constructor <;> decide

/-! ### The tokens are the maximal runs of non-delimiters -/

theorem split_ref_runs : ∀ (n : Nat) (s : List Char), s.length ≤ n →
    MaximalRuns s (split_ref s) := by
  intro n
  induction n with
  | zero =>
    intro s hs
    have : s = [] := List.length_eq_zero.mp (Nat.le_zero.mp hs)
    subst this
    rw [split_ref_nil]
    exact MaximalRuns.done [] (by simp)
  | succ n ih =>
    intro s hs
    have hdec : s = s.takeWhile isDelim ++ s.dropWhile isDelim :=
      (List.takeWhile_append_dropWhile isDelim s).symm
    have hgap : ∀ c ∈ s.takeWhile isDelim, isDelim c = true :=
      fun c hc => (List.mem_takeWhile_imp hc)
    cases hd : s.dropWhile isDelim with
    | nil =>
      have hall : ∀ c ∈ s, isDelim c = true := by
        intro c hc
        rw [hdec, hd, List.append_nil] at hc
        exact hgap c hc
      have hnil : split_ref s = [] := by
        rw [← split_ref_dropWhile, hd, split_ref_nil]
      rw [hnil]
      exact MaximalRuns.done s hall
    | cons c cs =>
      have hc : isDelim c = false := by
        have := List.head?_dropWhile_not isDelim s
        rw [hd] at this
        exact this
      have hsplit : split_ref s = split_ref (c :: cs) := by
        rw [← split_ref_dropWhile s, hd]
      have htokdec : c :: cs = (c :: cs).takeWhile (fun c => !isDelim c) ++
          (c :: cs).dropWhile (fun c => !isDelim c) :=
        (List.takeWhile_append_dropWhile _ _).symm
      have htokne : (c :: cs).takeWhile (fun c => !isDelim c) ≠ [] := by
        simp [List.takeWhile, hc]
      have htok : ∀ x ∈ (c :: cs).takeWhile (fun c => !isDelim c), isDelim x = false := by
        intro x hx
        simpa using List.mem_takeWhile_imp hx
      have hhead : ∀ x ∈ ((c :: cs).dropWhile (fun c => !isDelim c)).head?,
          isDelim x = true := by
        intro x hx
        have := List.head?_dropWhile_not (fun c => !isDelim c) (c :: cs)
        rw [Option.mem_def.mp hx] at this
        simpa using this
      have hrest : split_ref (((c :: cs).dropWhile (fun c => !isDelim c)).drop 1) =
          split_ref ((c :: cs).dropWhile (fun c => !isDelim c)) := by
        cases hr : (c :: cs).dropWhile (fun c => !isDelim c) with
        | nil => rfl
        | cons d r =>
          rw [hr] at hhead
          rw [split_ref_cons_delim d r (hhead d (by simp))]
          rfl
      have hlen : ((c :: cs).dropWhile (fun c => !isDelim c)).length ≤ n := by
        have h1 : ((c :: cs).dropWhile (fun c => !isDelim c)).length ≤ cs.length := by
          rw [List.dropWhile_cons_of_pos (by simp [hc])]
          exact (List.dropWhile_sublist _).length_le
        have h2 : (c :: cs).length ≤ s.length := by
          rw [← hd]; exact (List.dropWhile_sublist _).length_le
        simp only [List.length_cons] at h2
        omega
      have hrun := ih _ hlen
      rw [hsplit, split_ref_token c cs hc, hrest]
      have hs' : s = s.takeWhile isDelim ++ (c :: cs).takeWhile (fun c => !isDelim c) ++
          (c :: cs).dropWhile (fun c => !isDelim c) := by
        rw [List.append_assoc, ← htokdec, ← hd]
        exact hdec
      have key := MaximalRuns.token (s.takeWhile isDelim)
        ((c :: cs).takeWhile (fun c => !isDelim c))
        ((c :: cs).dropWhile (fun c => !isDelim c)) _ hgap htokne htok hhead hrun
      rw [← hs'] at key
      exact key

theorem runs_tokens_ok (s : List Char) (toks : List CStr) (h : MaximalRuns s toks) :
    (∀ t ∈ toks, t ≠ [] ∧ ∀ c ∈ t, c ∉ USH_TOK_DELIM) ∧
    toks.flatten = s.filter (fun c => !isDelim c) := by
  induction h with
  | done gap hgap =>
    refine ⟨by simp, ?_⟩
    rw [List.flatten_nil, eq_comm, List.filter_eq_nil_iff]
    intro c hc
    simp [hgap c hc]
  | token gap tok rest toks hgap hne htok _ _ ih =>
    refine ⟨?_, ?_⟩
    · intro t ht
      rcases List.mem_cons.mp ht with rfl | ht
      · refine ⟨hne, fun c hc hmem => ?_⟩
        have := htok c hc
        simp [isDelim, hmem] at this
      · exact ih.1 t ht
    · have h1 : gap.filter (fun c => !isDelim c) = [] := by
        rw [List.filter_eq_nil_iff]
        intro c hc
        simp [hgap c hc]
      have h2 : tok.filter (fun c => !isDelim c) = tok := by
        rw [List.filter_eq_self]
        intro c hc
        simp [htok c hc]
      rw [List.flatten_cons, List.filter_append, List.filter_append, h1, h2, ih.2]
      rfl

theorem split_ref_gap (gap s : List Char) (hgap : ∀ c ∈ gap, isDelim c = true) :
    split_ref (gap ++ s) = split_ref s := by
  induction gap with
  | nil => rfl
  | cons g gs ih =>
    rw [List.cons_append, split_ref_cons_delim g _ (hgap g (by simp))]
    exact ih (fun c hc => hgap c (by simp [hc]))

theorem split_ref_skip_head (rest : List Char) (hhead : ∀ c ∈ rest.head?, isDelim c = true) :
    split_ref (rest.drop 1) = split_ref rest := by
  cases rest with
  | nil => rfl
  | cons d r =>
    rw [split_ref_cons_delim d r (hhead d (by simp))]
    rfl

theorem runs_unique (s : List Char) (toks : List CStr) (h : MaximalRuns s toks) :
    toks = split_ref s := by
  induction h with
  | done gap hgap =>
    have : gap.dropWhile isDelim = [] := List.dropWhile_eq_nil_iff.mpr (by simpa using hgap)
    rw [← split_ref_dropWhile, this, split_ref_nil]
  | token gap tok rest toks hgap hne htok hhead _ ih =>
    rw [List.append_assoc, split_ref_gap gap _ hgap]
    cases tok with
    | nil => exact absurd rfl hne
    | cons c cs =>
      have hc : isDelim c = false := htok c (by simp)
      have hall : ∀ a ∈ c :: cs, (fun c => !isDelim c) a = true := by
        intro a ha
        simp [htok a ha]
      have hrest0 : rest.takeWhile (fun c => !isDelim c) = [] := by
        cases rest with
        | nil => rfl
        | cons d r => simp [List.takeWhile, hhead d (by simp)]
      have hrest1 : rest.dropWhile (fun c => !isDelim c) = rest := by
        cases rest with
        | nil => rfl
        | cons d r => simp [List.dropWhile, hhead d (by simp)]
      rw [List.cons_append, split_ref_token c _ hc, ← List.cons_append,
        List.takeWhile_append_of_pos hall, List.dropWhile_append_of_pos hall, hrest0, hrest1,
        List.append_nil, split_ref_skip_head rest hhead, ih]

/-- C5: for every line, `ush_split_line` returns (it does whenever its
allocations succeed; its only other outcome is `exit(EXIT_FAILURE)` after a
failed allocation) the result of the reference
split-on-delimiters-and-drop-empties, and that
result is the one list of the maximal non-empty runs of non-delimiter
characters, in order of occurrence: no token is empty, no token contains a
delimiter (space, tab, carriage return, newline, bell), and the tokens
concatenated are the line without its delimiters, so nothing else is stripped
or interpreted.  "ls  -la  /tmp" gives "ls", "-la", "/tmp"; quotes,
backslashes, vertical tab and form feed stay inside tokens. -/
theorem ush_split_line_tokens (os : OS) (st : State) (line : CStr)
    (halloc : ∀ n, os.alloc (st.log (.call_split_line line)) n = true) :
    ush_split_line os st line = .ret (split_ref line) (st.log (.call_split_line line)) ∧
    (∀ os' : OS,
      ush_split_line os' st line = .ret (split_ref line) (st.log (.call_split_line line)) ∨
      ush_split_line os' st line = .exit EXIT_FAILURE ((st.log (.call_split_line line)).log
        (.stderr "ush: allocation error\n".toList))) ∧
    MaximalRuns line (split_ref line) ∧
    (∀ toks, MaximalRuns line toks → toks = split_ref line) ∧
    (∀ t ∈ split_ref line, t ≠ [] ∧ ∀ c ∈ t, c ∉ USH_TOK_DELIM) ∧
    (split_ref line).flatten = line.filter (fun c => !USH_TOK_DELIM.contains c) ∧
    split_ref "ls  -la  /tmp".toList = ["ls".toList, "-la".toList, "/tmp".toList] ∧
    split_ref "say \"a b\"\\ c\x0b\x0cd\te\r\n\x07".toList =
      ["say".toList, "\"a".toList, "b\"\\".toList, "c\x0b\x0cd".toList, "e".toList] := by
  have hruns := split_ref_runs line.length line (le_refl _)
  have hok := runs_tokens_ok line _ hruns
  exact ⟨split_line_eq os st line halloc, fun os' => split_line_cases os' st line, hruns,
    fun toks h => runs_unique line toks h,
    hok.1, hok.2, by decide, by decide⟩

/-- Witness for C5: in the sample environment "ls  -la  /tmp" is tokenized
into "ls", "-la", "/tmp". -/
theorem ush_split_line_tokens_witness :
    ush_split_line sampleOS sampleState "ls  -la  /tmp".toList =
      .ret ["ls".toList, "-la".toList, "/tmp".toList]
        (sampleState.log (.call_split_line "ls  -la  /tmp".toList)) :=
  (ush_split_line_tokens sampleOS sampleState "ls  -la  /tmp".toList (fun _ => rfl)).1

/-! ### Empty lines and the `cd` built-in -/

theorem strtok_delims (line : CStr) (hline : ∀ c ∈ line, c ∈ USH_TOK_DELIM) :
    strtok line USH_TOK_DELIM = none := by
  have : line.dropWhile (fun c => USH_TOK_DELIM.contains c) = [] :=
    List.dropWhile_eq_nil_iff.mpr (by simpa using hline)
  unfold strtok
  rw [this]

theorem strstr_delims (line : CStr) (hline : ∀ c ∈ line, c ∈ USH_TOK_DELIM) (a : Char)
    (ha : a ∉ USH_TOK_DELIM) : strstr line [a, a] = none := by
  rw [strstr_none]
  intro hin
  exact ha (hline a (hin.subset (by simp)))

/-- C6: for every line that is empty or consists of delimiter characters only,
`ush_split_line` (its one allocation succeeding) yields zero tokens;
dispatching the empty vector returns continue and only enters the call in the
log, and `ush_handle_logical_ops` on such a line returns continue in a state
whose working directory is unchanged and whose log has gained the
tokenization and the dispatch and nothing else: no built-in handler, no
`fork`, no `chdir`. -/
theorem empty_line_noop (os : OS) (st : State) (line : CStr)
    (hline : ∀ c ∈ line, c ∈ USH_TOK_DELIM)
    (halloc : os.alloc (st.log (.call_split_line line)) USH_TOK_BUFSIZE = true) :
    ush_split_line os st line = .ret [] (st.log (.call_split_line line)) ∧
    (∀ st0, ush_run_command os st0 [] = .ret CONTINUE (st0.log (.call_run_command []))) ∧
    ush_handle_logical_ops os st line =
      .ret CONTINUE (st.logs [.call_split_line line, .call_run_command []]) ∧
    (st.logs [.call_split_line line, .call_run_command []]).cwd = st.cwd ∧
    (st.logs [.call_split_line line, .call_run_command []]).trace =
      st.trace ++ [.call_split_line line, .call_run_command []] := by
  have hsplit : ush_split_line os st line = .ret [] (st.log (.call_split_line line)) := by
    unfold ush_split_line
    simp only [halloc, if_true, strtok_delims line hline]
    unfold ush_split_line.loop
    simp [USH_TOK_BUFSIZE]
  refine ⟨hsplit, fun st0 => rfl, ?_, rfl, rfl⟩
  have hand := strstr_delims line hline '&' (by decide)
  have hor := strstr_delims line hline '|' (by decide)
  rw [handle_plain_eq os st line hand hor]
  unfold dispatch_segment
  rw [hsplit]
  simp only [Res.bind, run_command_nil, log_eq_logs, logs_logs]
  rfl

/-- Witness for C6: a line of blanks, a tab and a newline. -/
theorem empty_line_noop_witness :
    ush_handle_logical_ops sampleOS sampleState "  \t \n".toList =
      .ret CONTINUE (sampleState.logs [.call_split_line "  \t \n".toList,
        .call_run_command []]) :=
  (empty_line_noop sampleOS sampleState "  \t \n".toList (by decide) rfl).2.2.1

theorem chdir_calls_append (es fs : List Event) :
    chdir_calls (es ++ fs) = chdir_calls es ++ chdir_calls fs := by
  induction es with
  | nil => rfl
  | cons e es ih => cases e <;> simp [chdir_calls, ih]

/-- C7: `ush_cd` always returns continue, never stop.  For a vector with no
second element it makes no `chdir` call and leaves the working directory
unchanged; for a vector with a second element it makes exactly one `chdir`
call, with `args[1]` (further arguments are ignored), and returns continue
whether the call succeeds or fails, the working directory being unchanged when
it fails. -/
theorem ush_cd_effect (os : OS) (st : State) :
    (∀ args, ∃ st', ush_cd os st args = .ret CONTINUE st') ∧
    (∀ args v st', ush_cd os st args = .ret v st' → v ≠ STOP) ∧
    (∀ arg0, ush_cd os st [arg0] =
      .ret CONTINUE (st.logs [.call_cd [arg0],
        .stderr "ush: expected argument to \"cd\"\n".toList])) ∧
    (∀ arg0 path more d, os.chdir (st.log (.call_cd (arg0 :: path :: more))) path = some d →
      ush_cd os st (arg0 :: path :: more) =
        .ret CONTINUE ({ st with cwd := d }.logs
          [.call_cd (arg0 :: path :: more), .chdir path true])) ∧
    (∀ arg0 path more, os.chdir (st.log (.call_cd (arg0 :: path :: more))) path = none →
      ush_cd os st (arg0 :: path :: more) =
        .ret CONTINUE (st.logs
          [.call_cd (arg0 :: path :: more), .chdir path false, .perror "ush".toList])) ∧
    (∀ args v st', ush_cd os st args = .ret v st' →
      chdir_calls st'.trace = chdir_calls st.trace ++
        (match args with
         | _ :: path :: _ => [path]
         | _ => []) ∧
      ((∀ path, args[1]? = some path →
          os.chdir (st.log (.call_cd args)) path = none) → st'.cwd = st.cwd)) := by
  have hsome : ∀ arg0 path more d,
      os.chdir (st.log (.call_cd (arg0 :: path :: more))) path = some d →
      ush_cd os st (arg0 :: path :: more) =
        .ret CONTINUE ({ st with cwd := d }.logs
          [.call_cd (arg0 :: path :: more), .chdir path true]) := by
    intro arg0 path more d h
    simp only [ush_cd, h]
    simp [State.log, State.logs, CONTINUE]
  have hnone : ∀ arg0 path more,
      os.chdir (st.log (.call_cd (arg0 :: path :: more))) path = none →
      ush_cd os st (arg0 :: path :: more) =
        .ret CONTINUE (st.logs
          [.call_cd (arg0 :: path :: more), .chdir path false, .perror "ush".toList]) := by
    intro arg0 path more h
    simp only [ush_cd, h]
    simp [State.log, State.logs, CONTINUE]
  have hone : ∀ arg0, ush_cd os st [arg0] =
      .ret CONTINUE (st.logs [.call_cd [arg0],
        .stderr "ush: expected argument to \"cd\"\n".toList]) := by
    intro arg0
    simp [ush_cd, State.log, State.logs, CONTINUE]
  have hzero : ush_cd os st [] =
      .ret CONTINUE (st.logs [.call_cd [],
        .stderr "ush: expected argument to \"cd\"\n".toList]) := by
    simp [ush_cd, State.log, State.logs, CONTINUE]
  refine ⟨fun args => cd_returns os st args, ?_, hone, hsome, hnone, ?_⟩
  · intro args v st' h
    obtain ⟨s, hs⟩ := cd_returns os st args
    rw [hs] at h
    injection h with hv _
    rw [← hv]
    decide
  · intro args v st' h
    match args, h with
    | [], h =>
      rw [hzero] at h
      injection h with _ hst
      subst hst
      exact ⟨by simp [logs_trace, chdir_calls_append, chdir_calls], fun _ => rfl⟩
    | [arg0], h =>
      rw [hone arg0] at h
      injection h with _ hst
      subst hst
      exact ⟨by simp [logs_trace, chdir_calls_append, chdir_calls], fun _ => rfl⟩
    | arg0 :: path :: more, h =>
      cases hc : os.chdir (st.log (.call_cd (arg0 :: path :: more))) path with
      | none =>
        rw [hnone arg0 path more hc] at h
        injection h with _ hst
        subst hst
        exact ⟨by simp [logs_trace, chdir_calls_append, chdir_calls], fun _ => rfl⟩
      | some d =>
        rw [hsome arg0 path more d hc] at h
        injection h with _ hst
        subst hst
        refine ⟨by simp [logs_trace, chdir_calls_append, chdir_calls], fun hfail => ?_⟩
        have := hfail path (by simp)
        rw [hc] at this
        cases this

/-- Witness for C7: a successful change to "/tmp" with an ignored further
argument, and a failing change to "/nonexistent-path-xyz". -/
theorem ush_cd_effect_witness :
    ush_cd sampleOS sampleState ["cd".toList, "/tmp".toList, "more".toList] =
      .ret CONTINUE ({ sampleState with cwd := "/tmp".toList }.logs
        [.call_cd ["cd".toList, "/tmp".toList, "more".toList], .chdir "/tmp".toList true]) ∧
    ush_cd failOS sampleState ["cd".toList, "/nonexistent-path-xyz".toList] =
      .ret CONTINUE (sampleState.logs
        [.call_cd ["cd".toList, "/nonexistent-path-xyz".toList],
         .chdir "/nonexistent-path-xyz".toList false, .perror "ush".toList]) :=
  ⟨(ush_cd_effect sampleOS sampleState).2.2.2.1 _ _ _ _ rfl,
   (ush_cd_effect failOS sampleState).2.2.2.2.1 _ _ _ rfl⟩

/-! ### What the dispatcher calls -/

theorem new_events_logs (st : State) (es : List Event) : new_events st (st.logs es) = es := by
  simp [new_events, State.logs]

theorem logs_nil (st : State) : st.logs [] = st := by
  simp [State.logs]

theorem wait_trace (os : OS) (l : List Int) :
    ∀ (st st' : State), (ush_launch.wait os l st).state? = some st' →
      ∃ es, st' = st.logs es ∧ ∀ e ∈ es, e.isBuiltinCall = false := by
  induction l with
  | nil =>
    intro st st' h
    simp only [ush_launch.wait, Res.state?, Option.some.injEq] at h
    exact ⟨[], by rw [logs_nil]; exact h.symm, by simp⟩
  | cons s l ih =>
    intro st st' h
    unfold ush_launch.wait at h
    by_cases hc : (!os.WIFEXITED s && !os.WIFSIGNALED s) = true
    · rw [if_pos hc] at h
      obtain ⟨es, hes, hall⟩ := ih _ _ h
      refine ⟨.waitpid s :: es, ?_, ?_⟩
      · rw [hes, log_eq_logs, logs_logs]
        rfl
      · intro e he
        rcases List.mem_cons.mp he with rfl | he
        · rfl
        · exact hall e he
    · rw [if_neg hc] at h
      simp only [Res.state?, Option.some.injEq] at h
      exact ⟨[.waitpid s], h.symm, by simp [Event.isBuiltinCall]⟩

theorem launch_trace (os : OS) (st st' : State) (args : List CStr)
    (h : (ush_launch os st args).state? = some st') :
    ∃ es, st' = st.logs (.call_launch args :: es) ∧ ∀ e ∈ es, e.isBuiltinCall = false := by
  rcases lt_trichotomy (ush_launch.pid os st args) 0 with hpid | hpid | hpid
  · rw [launch_fork_failed os st args hpid] at h
    simp only [Res.state?, Option.some.injEq] at h
    refine ⟨[.fork (ush_launch.pid os st args), .perror "ush".toList], ?_, ?_⟩
    · rw [← h]
      simp only [log_eq_logs, logs_logs]
      rfl
    · simp [Event.isBuiltinCall]
  · rcases launch_child os st args hpid with hs | hs
    · rw [hs] at h
      simp only [Res.state?, Option.some.injEq] at h
      refine ⟨[.fork 0, .execvp (args.headD []) args], ?_, ?_⟩
      · rw [← h]
        simp only [log_eq_logs, logs_logs]
        rfl
      · simp [Event.isBuiltinCall]
    · rw [hs] at h
      simp only [Res.state?, Option.some.injEq] at h
      refine ⟨[.fork 0, .execvp (args.headD []) args, .perror "ush".toList], ?_, ?_⟩
      · rw [← h]
        simp only [log_eq_logs, logs_logs]
        rfl
      · simp [Event.isBuiltinCall]
  · rw [launch_parent os st args hpid] at h
    obtain ⟨es, hes, hall⟩ := wait_trace os _ _ _ h
    refine ⟨.fork (ush_launch.pid os st args) :: es, ?_, ?_⟩
    · rw [hes]
      simp only [log_eq_logs, logs_logs]
      rfl
    · intro e he
      rcases List.mem_cons.mp he with rfl | he
      · rfl
      · exact hall e he

theorem cd_trace (os : OS) (st : State) (args : List CStr) :
    ∃ st', ush_cd os st args = .ret 1 st' ∧ .call_cd args ∈ new_events st st' := by
  match args with
  | [] => exact ⟨_, rfl, by simp [new_events, State.log]⟩
  | [_] => exact ⟨_, rfl, by simp [new_events, State.log]⟩
  | a :: path :: more =>
    cases h : os.chdir (st.log (.call_cd (a :: path :: more))) path with
    | none =>
      exact ⟨((st.log (.call_cd (a :: path :: more))).log (.chdir path false)).log
        (.perror "ush".toList), by simp only [ush_cd, h], by simp [new_events, State.log]⟩
    | some d =>
      exact ⟨({ st.log (.call_cd (a :: path :: more)) with cwd := d }).log (.chdir path true),
        by simp only [ush_cd, h], by simp [new_events, State.log]⟩

theorem new_events_log (st st' : State) (x e : Event) (h : e ∈ new_events (st.log x) st') :
    e ∈ new_events st st' := by
  unfold new_events at h ⊢
  have hlen : (st.log x).trace.length = st.trace.length + 1 := by
    simp [State.log]
  rw [hlen, ← List.drop_drop] at h
  exact (List.drop_suffix 1 _).subset h

/-- C8: `ush_run_command` invokes a built-in handler if and only if `args[0]`
is equal, character for character, to one of "cd", "help", "exit"; it then
invokes the handler of that name and its outcome is that handler's.  For every
other first token (the case variants "CD" and "Exit", the prefix "ex" and the
extension "exits" among them) its outcome is that of `ush_launch` on the same
vector, and no handler is invoked. -/
theorem ush_run_command_dispatch (os : OS) (st : State) (arg0 : CStr) (rest : List CStr) :
    (arg0 = "cd".toList → ush_run_command os st (arg0 :: rest) =
      ush_cd os (st.log (.call_run_command (arg0 :: rest))) (arg0 :: rest)) ∧
    (arg0 = "help".toList → ush_run_command os st (arg0 :: rest) =
      ush_help os (st.log (.call_run_command (arg0 :: rest))) (arg0 :: rest)) ∧
    (arg0 = "exit".toList → ush_run_command os st (arg0 :: rest) =
      ush_exit os (st.log (.call_run_command (arg0 :: rest))) (arg0 :: rest)) ∧
    (arg0 ∉ internal_cmds → ush_run_command os st (arg0 :: rest) =
      ush_launch os (st.log (.call_run_command (arg0 :: rest))) (arg0 :: rest)) ∧
    (∀ st', (ush_run_command os st (arg0 :: rest)).state? = some st' →
      ((∃ e ∈ new_events st st', e.isBuiltinCall = true) ↔ arg0 ∈ internal_cmds)) ∧
    "CD".toList ∉ internal_cmds ∧ "Exit".toList ∉ internal_cmds ∧
    "ex".toList ∉ internal_cmds ∧ "exits".toList ∉ internal_cmds := by
  refine ⟨?_, ?_, ?_, ?_, ?_, by decide, by decide, by decide, by decide⟩
  · rintro rfl; exact run_command_cd os st rest
  · rintro rfl; exact run_command_help os st rest
  · rintro rfl; exact run_command_exit os st rest
  · exact run_command_external os st arg0 rest
  · intro st' h
    by_cases hin : arg0 ∈ internal_cmds
    · refine ⟨fun _ => hin, fun _ => ?_⟩
      have hin' := hin
      simp only [internal_cmds, List.mem_cons, List.mem_singleton, List.not_mem_nil,
        or_false] at hin'
      rcases hin' with rfl | rfl | rfl
      · rw [run_command_cd] at h
        obtain ⟨s, hs, hmem⟩ := cd_trace os (st.log (.call_run_command ("cd".toList :: rest)))
          ("cd".toList :: rest)
        rw [hs] at h
        simp only [Res.state?, Option.some.injEq] at h
        subst h
        exact ⟨_, new_events_log _ _ _ _ hmem, rfl⟩
      · rw [run_command_help, help_eq] at h
        simp only [Res.state?, Option.some.injEq] at h
        subst h
        refine ⟨.call_help ("help".toList :: rest),
          new_events_log st _ (.call_run_command ("help".toList :: rest)) _ ?_, rfl⟩
        rw [new_events_logs]
        simp
      · rw [run_command_exit, exit_eq] at h
        simp only [Res.state?, Option.some.injEq] at h
        subst h
        refine ⟨.call_exit ("exit".toList :: rest),
          new_events_log st _ (.call_run_command ("exit".toList :: rest)) _ ?_, rfl⟩
        rw [new_events_logs]
        simp
    · refine ⟨fun hex => ?_, fun hc => absurd hc hin⟩
      rw [run_command_external os st arg0 rest hin] at h
      obtain ⟨es, hes, hall⟩ := launch_trace os _ _ _ h
      obtain ⟨e, he, hb⟩ := hex
      rw [hes, log_eq_logs, logs_logs, new_events_logs] at he
      simp only [List.singleton_append, List.mem_cons] at he
      rcases he with rfl | rfl | he
      · cases hb
      · cases hb
      · rw [hall e he] at hb
        cases hb

/-- Witness for C8 in the sample environment: "cd" reaches `ush_cd`, while
"CD" is launched as an external command. -/
theorem ush_run_command_dispatch_witness :
    ush_run_command sampleOS sampleState ["cd".toList, "/tmp".toList] =
      ush_cd sampleOS (sampleState.log (.call_run_command ["cd".toList, "/tmp".toList]))
        ["cd".toList, "/tmp".toList] ∧
    ush_run_command sampleOS sampleState ["CD".toList, "/tmp".toList] =
      ush_launch sampleOS (sampleState.log (.call_run_command ["CD".toList, "/tmp".toList]))
        ["CD".toList, "/tmp".toList] :=
  ⟨(ush_run_command_dispatch sampleOS sampleState "cd".toList ["/tmp".toList]).1 rfl,
   (ush_run_command_dispatch sampleOS sampleState "CD".toList ["/tmp".toList]).2.2.2.1
     (by decide)⟩

/-! ### Reading lines and the input loop -/

theorem cstr_append_nul (l : List Char) : (l ++ ['\x00']).takeWhile (fun b => b != '\x00') = cstr l := by
  unfold cstr
  induction l with
  | nil => simp [List.takeWhile]
  | cons c l ih =>
    by_cases hc : (c != '\x00') = true
    · rw [List.cons_append, List.takeWhile_cons_of_pos (p := fun b => b != '\x00') hc,
        List.takeWhile_cons_of_pos (p := fun b => b != '\x00') hc, ih]
    · rw [List.cons_append, List.takeWhile_cons_of_neg (p := fun b => b != '\x00') hc,
        List.takeWhile_cons_of_neg (p := fun b => b != '\x00') hc]

theorem read_loop_char (os : OS) (st : State) (c : Char) (input : List Char)
    (bufsize position : Nat) (buffer : List Char) (hc : c ≠ '\n') (hp : position < bufsize) :
    ush_read_input.loop os st (c :: input) bufsize position buffer =
      if position + 1 ≥ bufsize then
        if os.alloc st (bufsize + USH_BUFSIZE) then
          ush_read_input.loop os st input (bufsize + USH_BUFSIZE) (position + 1) (buffer ++ [c])
        else .exit EXIT_FAILURE (st.log (.stderr "ush: allocation error\n".toList))
      else ush_read_input.loop os st input bufsize (position + 1) (buffer ++ [c]) := by
  simp only [ush_read_input.loop, hc, if_false, hp, if_true]

theorem read_loop_line (os : OS) (st : State) (halloc : ∀ n, os.alloc st n = true)
    (rest : List Char) :
    ∀ (l buffer : List Char) (bufsize : Nat), '\n' ∉ l → buffer.length < bufsize →
      ush_read_input.loop os st (l ++ '\n' :: rest) bufsize buffer.length buffer =
        .ret (cstr (buffer ++ l), rest) st := by
  intro l
  induction l with
  | nil =>
    intro buffer bufsize _ hp
    simp [ush_read_input.loop, hp, cstr_append_nul]
  | cons c l ih =>
    intro buffer bufsize hnl hp
    have hc : c ≠ '\n' := fun h => hnl (by simp [h])
    have hl : '\n' ∉ l := fun h => hnl (by simp [h])
    have hlen : (buffer ++ [c]).length = buffer.length + 1 := by simp
    rw [List.cons_append, read_loop_char os st c _ _ _ _ hc hp, halloc, if_pos rfl, ← hlen]
    by_cases hge : (buffer ++ [c]).length ≥ bufsize
    · rw [if_pos hge, ih (buffer ++ [c]) (bufsize + USH_BUFSIZE) hl
        (by simp [USH_BUFSIZE]; omega)]
      simp
    · rw [if_neg hge, ih (buffer ++ [c]) bufsize hl (by omega)]
      simp

theorem read_loop_eof (os : OS) (st : State) (halloc : ∀ n, os.alloc st n = true) :
    ∀ (l buffer : List Char) (bufsize : Nat), '\n' ∉ l → buffer.length < bufsize →
      ush_read_input.loop os st l bufsize buffer.length buffer = .exit EXIT_SUCCESS st := by
  intro l
  induction l with
  | nil =>
    intro buffer bufsize _ _
    rfl
  | cons c l ih =>
    intro buffer bufsize hnl hp
    have hc : c ≠ '\n' := fun h => hnl (by simp [h])
    have hl : '\n' ∉ l := fun h => hnl (by simp [h])
    have hlen : (buffer ++ [c]).length = buffer.length + 1 := by simp
    rw [read_loop_char os st c _ _ _ _ hc hp, halloc, if_pos rfl, ← hlen]
    by_cases hge : (buffer ++ [c]).length ≥ bufsize
    · rw [if_pos hge, ih (buffer ++ [c]) (bufsize + USH_BUFSIZE) hl
        (by simp [USH_BUFSIZE]; omega)]
    · rw [if_neg hge, ih (buffer ++ [c]) bufsize hl (by omega)]

theorem read_input_line (os : OS) (st : State) (halloc : ∀ n, os.alloc st n = true)
    (l rest : List Char) (hl : '\n' ∉ l) :
    ush_read_input os st (l ++ '\n' :: rest) = .ret (cstr l, rest) st := by
  unfold ush_read_input
  simp only [halloc, if_true]
  have := read_loop_line os st halloc rest l [] USH_BUFSIZE hl (by simp [USH_BUFSIZE])
  simpa using this

theorem read_input_eof (os : OS) (st : State) (halloc : ∀ n, os.alloc st n = true)
    (l : List Char) (hl : '\n' ∉ l) :
    ush_read_input os st l = .exit EXIT_SUCCESS st := by
  unfold ush_read_input
  simp only [halloc, if_true]
  have := read_loop_eof os st halloc l [] USH_BUFSIZE hl (by simp [USH_BUFSIZE])
  simpa using this

theorem res_bind_ret {α β : Type} (r : Res α) (f : α → State → Res β) (v : β) (st' : State)
    (h : r.bind f = .ret v st') : ∃ a s, r = .ret a s ∧ f a s = .ret v st' := by
  cases r with
  | ret a s => exact ⟨a, s, rfl, h⟩
  | exit c s => cases h
  | exec s => cases h
  | hang s => cases h
  | fault s => cases h
  | nofuel => cases h

theorem res_bind_congr {α β : Type} (r : Res α) (f g : α → State → Res β)
    (h : ∀ a s, r = .ret a s → f a s = g a s) : r.bind f = r.bind g := by
  cases r with
  | ret a s => exact h a s rfl
  | exit c s => rfl
  | exec s => rfl
  | hang s => rfl
  | fault s => rfl
  | nofuel => rfl

theorem dispatch_value (os : OS) (st : State) (segment : CStr) (v : Int) (st' : State)
    (h : dispatch_segment os st segment = .ret v st') : v = 0 ∨ v = 1 := by
  obtain ⟨args, st0, _, hrun⟩ := dispatch_segment_value os st segment v st' h
  obtain ⟨h0, h1⟩ := run_command_value os st0 args v st' hrun
  by_cases hx : args.head? = some "exit".toList
  · exact Or.inl (h0 hx)
  · exact Or.inr (h1 hx)

theorem handle_value (os : OS) (st : State) (line : CStr) (v : Int) (st' : State)
    (h : ush_handle_logical_ops os st line = .ret v st') : v = 0 ∨ v = 1 := by
  cases hand : strstr line "&&".toList with
  | some i =>
    rw [handle_and_eq os st line i hand] at h
    obtain ⟨s, st1, hleft, hk⟩ := res_bind_ret _ _ v st' h
    by_cases hs : s = 1
    · rw [if_pos hs] at hk
      exact dispatch_value os _ _ v st' hk
    · rw [if_neg hs] at hk
      injection hk with hv _
      subst hv
      exact dispatch_value os _ _ s st1 hleft
  | none =>
    cases hor : strstr line "||".toList with
    | some i =>
      rw [handle_or_eq os st line i hand hor] at h
      obtain ⟨s, st1, hleft, hk⟩ := res_bind_ret _ _ v st' h
      by_cases hs : s ≠ 1
      · rw [if_pos hs] at hk
        exact dispatch_value os _ _ v st' hk
      · rw [if_neg hs] at hk
        injection hk with hv _
        subst hv
        exact dispatch_value os _ _ s st1 hleft
    | none =>
      rw [handle_plain_eq os st line hand hor] at h
      exact dispatch_value os _ _ v st' h

theorem main_loop_succ (os : OS) (fuel : Nat) (st : State) (input : List Char) :
    ush_main_loop os (fuel + 1) st input =
      (ush_read_input os (st.log PROMPT) input).bind fun read st =>
        (ush_handle_logical_ops os st read.1).bind fun status st =>
          if status ≠ 0 then ush_main_loop os fuel st read.2 else .ret () st := rfl

theorem main_loop_step_line (os : OS) (hos : os.allocOk) (fuel : Nat) (st : State)
    (l rest : List Char) (hl : '\n' ∉ l) :
    ush_main_loop os (fuel + 1) st (l ++ '\n' :: rest) =
      (ush_handle_logical_ops os (st.log PROMPT) (cstr l)).bind fun status st' =>
        if status = CONTINUE then ush_main_loop os fuel st' rest else .ret () st' := by
  rw [main_loop_succ, read_input_line os _ (fun n => hos _ n) l rest hl]
  simp only [Res.bind]
  apply res_bind_congr
  intro v s hv
  rcases handle_value os _ _ v s hv with rfl | rfl
  · rfl
  · rfl

theorem main_loop_step_eof (os : OS) (hos : os.allocOk) (fuel : Nat) (st : State)
    (tail : List Char) (hl : '\n' ∉ tail) :
    ush_main_loop os (fuel + 1) st tail = .exit EXIT_SUCCESS (st.log PROMPT) := by
  rw [main_loop_succ, read_input_eof os _ (fun n => hos _ n) tail hl]
  rfl

theorem main_loop_refines (os : OS) (hos : os.allocOk) (tail : List Char) (ht : '\n' ∉ tail) :
    ∀ (lines : List (List Char)), (∀ l ∈ lines, '\n' ∉ l) →
      ∀ (fuel : Nat) (st : State), lines.length < fuel →
        ush_main_loop os fuel st (stdin_of lines tail) = lines_loop os lines st := by
  intro lines
  induction lines with
  | nil =>
    intro _ fuel st hf
    obtain ⟨f, rfl⟩ : ∃ f, fuel = f + 1 := ⟨fuel - 1, by omega⟩
    exact main_loop_step_eof os hos f st tail ht
  | cons l ls ih =>
    intro hls fuel st hf
    obtain ⟨f, rfl⟩ : ∃ f, fuel = f + 1 := ⟨fuel - 1, by omega⟩
    have hl : '\n' ∉ l := hls l (by simp)
    have hf' : ls.length < f := by simpa using hf
    simp only [stdin_of, lines_loop]
    rw [main_loop_step_line os hos f st l _ hl]
    apply res_bind_congr
    intro v s _
    rw [ih (fun x hx => hls x (by simp [hx])) f s hf']

theorem stdin_of_length (lines : List (List Char)) (tail : List Char) :
    lines.length ≤ (stdin_of lines tail).length := by
  induction lines with
  | nil => simp
  | cons l ls ih =>
    simp only [stdin_of, List.length_append, List.length_cons]
    omega

theorem main_eq (os : OS) (st : State) (input : List Char) :
    main os st input =
      (ush_main_loop os (input.length + 1) (st.log BANNER) input).bind fun _ st =>
        .ret EXIT_SUCCESS st := rfl

/-- C10: with allocations succeeding, one iteration of `ush_main_loop` on an
input that starts with a complete line prints the prompt, evaluates the line,
and goes on to the next iteration (prompt, read) if and only if
`ush_handle_logical_ops` returned continue, returning otherwise; at end of
input it prints the prompt and the process exits with success status without
dispatching anything.  Over a sequence of complete lines `main` behaves as the
loop of the specification: it returns 0 right after the first line whose signal
is stop, in the state that line's evaluation ended in, whatever input
follows. -/
theorem main_loop_lines (os : OS) (st : State) (hos : os.allocOk) :
    (∀ (fuel : Nat) (l rest : List Char), '\n' ∉ l →
      ush_main_loop os (fuel + 1) st (l ++ '\n' :: rest) =
        (ush_handle_logical_ops os (st.log PROMPT) (cstr l)).bind fun status st' =>
          if status = CONTINUE then ush_main_loop os fuel st' rest else .ret () st') ∧
    (∀ (fuel : Nat) (tail : List Char), '\n' ∉ tail →
      ush_main_loop os (fuel + 1) st tail = .exit EXIT_SUCCESS (st.log PROMPT)) ∧
    (∀ (lines : List (List Char)) (tail : List Char), (∀ l ∈ lines, '\n' ∉ l) → '\n' ∉ tail →
      main os st (stdin_of lines tail) =
        (lines_loop os lines (st.log BANNER)).bind fun _ st' => .ret EXIT_SUCCESS st') ∧
    (∀ (l rest : List Char) (st' : State), '\n' ∉ l →
      ush_handle_logical_ops os ((st.log BANNER).log PROMPT) (cstr l) = .ret STOP st' →
      main os st (l ++ '\n' :: rest) = .ret EXIT_SUCCESS st') ∧
    (∀ (l rest : List Char) (st' : State), '\n' ∉ l →
      ush_handle_logical_ops os ((st.log BANNER).log PROMPT) (cstr l) = .ret CONTINUE st' →
      main os st (l ++ '\n' :: rest) =
        (ush_main_loop os (l ++ '\n' :: rest).length st' rest).bind fun _ st' =>
          .ret EXIT_SUCCESS st') ∧
    (∀ tail : List Char, '\n' ∉ tail →
      main os st tail = .exit EXIT_SUCCESS ((st.log BANNER).log PROMPT)) ∧
    (∀ (l : List Char) (ls : List (List Char)) (st0 st' : State),
      ush_handle_logical_ops os (st0.log PROMPT) (cstr l) = .ret STOP st' →
      lines_loop os (l :: ls) st0 = .ret () st') ∧
    (∀ (l : List Char) (ls : List (List Char)) (st0 st' : State),
      ush_handle_logical_ops os (st0.log PROMPT) (cstr l) = .ret CONTINUE st' →
      lines_loop os (l :: ls) st0 = lines_loop os ls st') ∧
    (∀ st0 : State, lines_loop os [] st0 = .exit EXIT_SUCCESS (st0.log PROMPT)) := by
  refine ⟨?_, ?_, ?_, ?_, ?_, ?_, ?_, ?_, fun _ => rfl⟩
  · intro fuel l rest hl
    exact main_loop_step_line os hos fuel st l rest hl
  · intro fuel tail ht
    exact main_loop_step_eof os hos fuel st tail ht
  · intro lines tail hls ht
    rw [main_eq, main_loop_refines os hos tail ht lines hls _ _
      (Nat.lt_succ_of_le (stdin_of_length lines tail))]
  · intro l rest st' hl h
    rw [main_eq, main_loop_step_line os hos _ _ l rest hl, h]
    rfl
  · intro l rest st' hl h
    rw [main_eq, main_loop_step_line os hos _ _ l rest hl, h]
    rfl
  · intro tail ht
    rw [main_eq, main_loop_step_eof os hos _ _ tail ht]
    rfl
  · intro l ls st0 st' h
    simp only [lines_loop, h]
    rfl
  · intro l ls st0 st' h
    simp only [lines_loop, h]
    rfl

/-- Witness for C10 in the sample environment: on the input "help", "exit",
"ls" the shell runs `help`, prompts again, runs `exit` and returns 0; the
command "ls" is never read or dispatched.  On empty input it prompts once and
exits with success status. -/
theorem main_loop_lines_witness :
    main sampleOS sampleState "help\nexit\nls\n".toList =
      .ret EXIT_SUCCESS (sampleState.logs ([BANNER, PROMPT, .call_split_line "help".toList,
        .call_run_command ["help".toList], .call_help ["help".toList]] ++ help_output ++
        [PROMPT, .call_split_line "exit".toList, .call_run_command ["exit".toList],
         .call_exit ["exit".toList]])) ∧
    main sampleOS sampleState [] = .exit EXIT_SUCCESS (sampleState.logs [BANNER, PROMPT]) :=
  ⟨((main_loop_lines sampleOS sampleState (fun _ _ => rfl)).2.2.1
      ["help".toList, "exit".toList, "ls".toList] [] (by decide) (by decide)).trans
      (by decide),
   (main_loop_lines sampleOS sampleState (fun _ _ => rfl)).2.2.2.2.2.1 [] (by decide)⟩

/-! ### The process launcher -/

theorem wait_stops (os : OS) (t : Int) (later : List Int) (ht : os.terminal t = true) :
    ∀ (stops : List Int) (st : State), (∀ s ∈ stops, os.terminal s = false) →
      ush_launch.wait os (stops ++ t :: later) st =
        .ret 1 (st.logs (stops.map Event.waitpid ++ [.waitpid t])) := by
  intro stops
  induction stops with
  | nil =>
    intro st _
    simp only [OS.terminal, Bool.or_eq_true] at ht
    rcases ht with h | h <;> simp [ush_launch.wait, h, log_eq_logs]
  | cons s stops ih =>
    intro st hs
    have h' : os.terminal s = false := hs s (by simp)
    simp only [OS.terminal, Bool.or_eq_false_iff] at h'
    have hloop : ush_launch.wait os (s :: (stops ++ t :: later)) st =
        ush_launch.wait os (stops ++ t :: later) (st.log (.waitpid s)) := by
      simp [ush_launch.wait, h'.1, h'.2]
    rw [List.cons_append, hloop, ih _ (fun x hx => hs x (by simp [hx])), log_eq_logs, logs_logs]
    rfl

theorem wait_all_stopped (os : OS) :
    ∀ (l : List Int) (st : State), (∀ s ∈ l, os.terminal s = false) →
      ush_launch.wait os l st = .hang (st.logs (l.map Event.waitpid)) := by
  intro l
  induction l with
  | nil =>
    intro st _
    simp [ush_launch.wait, logs_nil]
  | cons s l ih =>
    intro st hs
    have h' : os.terminal s = false := hs s (by simp)
    simp only [OS.terminal, Bool.or_eq_false_iff] at h'
    have hloop : ush_launch.wait os (s :: l) st =
        ush_launch.wait os l (st.log (.waitpid s)) := by
      simp [ush_launch.wait, h'.1, h'.2]
    rw [hloop, ih _ (fun x hx => hs x (by simp [hx])), log_eq_logs, logs_logs]
    rfl

/-- The launcher when every `waitpid` call delivers a status: it never returns
anything but continue; when `fork` fails it returns at once; when `fork`
succeeds the parent calls `waitpid` once for every status that is neither
exited nor signalled and returns right after the first status that is, and
while no such status arrives it keeps waiting; the forked child execs or exits
with failure.  With the glibc macros every stopped status is neither exited
nor signalled. -/
theorem launch_delivered_statuses (os : OS) (st : State) (args : List CStr) :
    (∀ v st', ush_launch os st args = .ret v st' → v = CONTINUE) ∧
    (ush_launch.pid os st args < 0 →
      ush_launch os st args =
        .ret CONTINUE (st.logs [.call_launch args, .fork (ush_launch.pid os st args),
          .perror "ush".toList])) ∧
    (∀ (stops later : List Int) (t : Int), 0 < ush_launch.pid os st args →
      ush_launch.statuses os st args = stops ++ t :: later →
      (∀ s ∈ stops, os.terminal s = false) → os.terminal t = true →
      ush_launch os st args =
        .ret CONTINUE (st.logs ([.call_launch args, .fork (ush_launch.pid os st args)] ++
          stops.map Event.waitpid ++ [.waitpid t]))) ∧
    (0 < ush_launch.pid os st args →
      (∀ s ∈ ush_launch.statuses os st args, os.terminal s = false) →
      ush_launch os st args =
        .hang (st.logs ([.call_launch args, .fork (ush_launch.pid os st args)] ++
          (ush_launch.statuses os st args).map Event.waitpid))) ∧
    (ush_launch.pid os st args = 0 →
      ush_launch os st args =
        .exec (st.logs [.call_launch args, .fork 0, .execvp (args.headD []) args]) ∨
      ush_launch os st args =
        .exit EXIT_FAILURE (st.logs [.call_launch args, .fork 0,
          .execvp (args.headD []) args, .perror "ush".toList])) ∧
    (∀ s : Int, WIFSTOPPED s = true → sampleOS.terminal s = false) := by
  refine ⟨fun v st' h => launch_value os st args v st' h, ?_, ?_, ?_, ?_, ?_⟩
  · intro hpid
    rw [launch_fork_failed os st args hpid]
    simp only [log_eq_logs, logs_logs]
    rfl
  · intro stops later t hpid hst hstops ht
    rw [launch_parent os st args hpid, hst, wait_stops os t later ht stops _ hstops]
    simp only [log_eq_logs, logs_logs]
    rfl
  · intro hpid hall
    rw [launch_parent os st args hpid, wait_all_stopped os _ _ hall]
    simp only [log_eq_logs, logs_logs]
    rfl
  · intro hpid
    rcases launch_child os st args hpid with h | h
    · left
      rw [h]
      simp only [log_eq_logs, logs_logs]
      rfl
    · right
      rw [h]
      simp only [log_eq_logs, logs_logs]
      rfl
  · intro s hs
    simp only [WIFSTOPPED, beq_iff_eq] at hs
    have h1 : s % 128 = 127 := by omega
    simp [OS.terminal, sampleOS, h1]

/-! ### Buffer bounds of `ush_read_input` and partial lines -/

theorem read_loop_no_fault (os : OS) (st : State) :
    ∀ (input : List Char) (bufsize position : Nat) (buffer : List Char) (s : State),
      position < bufsize →
      ush_read_input.loop os st input bufsize position buffer ≠ .fault s := by
  intro input
  induction input with
  | nil =>
    intro bufsize position buffer s _ h
    simp [ush_read_input.loop] at h
  | cons c input ih =>
    intro bufsize position buffer s hp h
    by_cases hc : c = '\n'
    · subst hc
      simp [ush_read_input.loop, hp] at h
    · rw [read_loop_char os st c input bufsize position buffer hc hp] at h
      by_cases hge : position + 1 ≥ bufsize
      · rw [if_pos hge] at h
        cases ha : os.alloc st (bufsize + USH_BUFSIZE) with
        | false => simp [ha] at h
        | true =>
          simp only [ha, if_true] at h
          exact ih _ _ _ s (by simp [USH_BUFSIZE]; omega) h
      · rw [if_neg hge] at h
        exact ih _ _ _ s (by omega) h

theorem read_input_no_fault (os : OS) (st : State) (input : List Char) (s : State) :
    ush_read_input os st input ≠ .fault s := by
  unfold ush_read_input
  cases ha : os.alloc st USH_BUFSIZE with
  | false => simp
  | true =>
    simp only [if_true]
    exact read_loop_no_fault os st input _ _ _ s (by simp [USH_BUFSIZE])

theorem read_loop_eof_cases (os : OS) (st : State) :
    ∀ (l buffer : List Char) (bufsize position : Nat), '\n' ∉ l → position < bufsize →
      ush_read_input.loop os st l bufsize position buffer = .exit EXIT_SUCCESS st ∨
      ush_read_input.loop os st l bufsize position buffer =
        .exit EXIT_FAILURE (st.log (.stderr "ush: allocation error\n".toList)) := by
  intro l
  induction l with
  | nil =>
    intro buffer bufsize position _ _
    left
    rfl
  | cons c l ih =>
    intro buffer bufsize position hnl hp
    have hc : c ≠ '\n' := fun h => hnl (by simp [h])
    have hl : '\n' ∉ l := fun h => hnl (by simp [h])
    rw [read_loop_char os st c l bufsize position buffer hc hp]
    by_cases hge : position + 1 ≥ bufsize
    · rw [if_pos hge]
      cases ha : os.alloc st (bufsize + USH_BUFSIZE) with
      | false => right; simp
      | true =>
        simp only [if_true]
        exact ih _ _ _ hl (by simp [USH_BUFSIZE]; omega)
    · rw [if_neg hge]
      exact ih _ _ _ hl (by omega)

theorem read_input_eof_cases (os : OS) (st : State) (tail : List Char) (hnl : '\n' ∉ tail) :
    ush_read_input os st tail = .exit EXIT_SUCCESS st ∨
    ush_read_input os st tail =
      .exit EXIT_FAILURE (st.log (.stderr "ush: allocation error\n".toList)) := by
  unfold ush_read_input
  cases ha : os.alloc st USH_BUFSIZE with
  | false => right; simp
  | true =>
    simp only [if_true]
    exact read_loop_eof_cases os st tail [] _ _ hnl (by simp [USH_BUFSIZE])

theorem cstr_eq_self (l : List Char) (hnul : '\x00' ∉ l) : cstr l = l := by
  unfold cstr
  rw [List.takeWhile_eq_self_iff]
  intro c hc
  have : c ≠ '\x00' := fun h => hnul (h ▸ hc)
  simpa using this

theorem read_loop_step (os : OS) (st : State) (c : Char) (input : List Char)
    (bufsize position : Nat) (buffer : List Char) (hc : c ≠ '\n') (hp : position < bufsize) :
    ush_read_input.loop os st (c :: input) bufsize position buffer =
        .exit EXIT_FAILURE (st.log (.stderr "ush: allocation error\n".toList)) ∨
    ∃ bufsize', position + 1 < bufsize' ∧
      (bufsize' = bufsize ∨ bufsize' = position + 1 + USH_BUFSIZE) ∧
      ush_read_input.loop os st (c :: input) bufsize position buffer =
        ush_read_input.loop os st input bufsize' (position + 1) (buffer ++ [c]) := by
  rw [read_loop_char os st c input bufsize position buffer hc hp]
  by_cases hge : position + 1 ≥ bufsize
  · rw [if_pos hge]
    cases ha : os.alloc st (bufsize + USH_BUFSIZE) with
    | false => left; simp
    | true =>
      right
      exact ⟨bufsize + USH_BUFSIZE, by simp [USH_BUFSIZE]; omega, Or.inr (by omega), by simp⟩
  · rw [if_neg hge]
    right
    exact ⟨bufsize, by omega, Or.inl rfl, rfl⟩

/-- C16: when end of input is reached before any newline, after any number of
characters of a line, `ush_read_input` does not return the partial line: it
exits the process, with success status when its allocations succeed, and
nothing is tokenized or dispatched.  `main` on such an input only prints the
banner and the prompt, a partial line after complete lines changes nothing,
and for the input "help" followed by end of input no command runs. -/
theorem partial_line_discarded (os : OS) (st : State) (tail : List Char)
    (hnl : '\n' ∉ tail) :
    (ush_read_input os st tail = .exit EXIT_SUCCESS st ∨
      ush_read_input os st tail =
        .exit EXIT_FAILURE (st.log (.stderr "ush: allocation error\n".toList))) ∧
    ((∀ n, os.alloc st n = true) → ush_read_input os st tail = .exit EXIT_SUCCESS st) ∧
    (os.allocOk → main os st tail = .exit EXIT_SUCCESS (st.logs [BANNER, PROMPT])) ∧
    (os.allocOk → ∀ lines : List (List Char), (∀ l ∈ lines, '\n' ∉ l) →
      main os st (stdin_of lines tail) = main os st (stdin_of lines [])) ∧
    (os.allocOk → main os st "help".toList = .exit EXIT_SUCCESS (st.logs [BANNER, PROMPT])) := by
  have hmain : ∀ t : List Char, '\n' ∉ t → os.allocOk →
      main os st t = .exit EXIT_SUCCESS (st.logs [BANNER, PROMPT]) := by
    intro t ht hos
    rw [main_eq, main_loop_step_eof os hos _ _ t ht]
    simp only [log_eq_logs, logs_logs]
    rfl
  refine ⟨read_input_eof_cases os st tail hnl,
    fun halloc => read_input_eof os st halloc tail hnl, hmain tail hnl, ?_,
    hmain "help".toList (by decide)⟩
  intro hos lines hls
  rw [main_eq, main_eq,
    main_loop_refines os hos tail hnl lines hls _ _
      (Nat.lt_succ_of_le (stdin_of_length lines tail)),
    main_loop_refines os hos [] (by simp) lines hls _ _
      (Nat.lt_succ_of_le (stdin_of_length lines []))]

/-- Witness for C16 in the sample environment: the input "help" without a
newline runs no command, and after the complete line "cd /tmp" the partial
line "exit" is not run either. -/
theorem partial_line_discarded_witness :
    main sampleOS sampleState "help".toList =
      .exit EXIT_SUCCESS (sampleState.logs [BANNER, PROMPT]) ∧
    main sampleOS sampleState "cd /tmp\nexit".toList =
      .exit EXIT_SUCCESS ({ sampleState with cwd := "/tmp".toList }.logs
        [BANNER, PROMPT, .call_split_line "cd /tmp".toList,
         .call_run_command ["cd".toList, "/tmp".toList],
         .call_cd ["cd".toList, "/tmp".toList], .chdir "/tmp".toList true, PROMPT]) :=
  ⟨(partial_line_discarded sampleOS sampleState "help".toList (by decide)).2.2.1
      (fun _ _ => rfl),
   ((partial_line_discarded sampleOS sampleState "exit".toList (by decide)).2.2.2.1
      (fun _ _ => rfl) ["cd /tmp".toList] (by decide)).trans (by decide)⟩

/-! ### Counting the dispatches -/

theorem dispatches_append (es fs : List Event) :
    dispatches (es ++ fs) = dispatches es ++ dispatches fs := by
  induction es with
  | nil => rfl
  | cons e es ih => cases e <;> simp [dispatches, ih]

theorem new_events_of_trace (st st' : State) (es : List Event)
    (h : st'.trace = st.trace ++ es) : new_events st st' = es := by
  simp [new_events, h]

theorem bind_state {α β : Type} (r : Res α) (f : α → State → Res β) (st' : State)
    (h : (r.bind f).state? = some st') :
    (∃ a s, r = .ret a s ∧ (f a s).state? = some st') ∨
    ((∀ a s, r ≠ .ret a s) ∧ r.state? = some st') := by
  cases r with
  | ret a s => exact Or.inl ⟨a, s, rfl, h⟩
  | exit c s => exact Or.inr ⟨fun _ _ hc => (by cases hc), h⟩
  | exec s => exact Or.inr ⟨fun _ _ hc => (by cases hc), h⟩
  | hang s => exact Or.inr ⟨fun _ _ hc => (by cases hc), h⟩
  | fault s => exact Or.inr ⟨fun _ _ hc => (by cases hc), h⟩
  | nofuel => cases h

theorem wait_dispatches (os : OS) (l : List Int) :
    ∀ (st st' : State), (ush_launch.wait os l st).state? = some st' →
      ∃ es, st'.trace = st.trace ++ es ∧ dispatches es = [] := by
  induction l with
  | nil =>
    intro st st' h
    simp only [ush_launch.wait, Res.state?, Option.some.injEq] at h
    exact ⟨[], by simp [← h], rfl⟩
  | cons s l ih =>
    intro st st' h
    unfold ush_launch.wait at h
    by_cases hc : (!os.WIFEXITED s && !os.WIFSIGNALED s) = true
    · rw [if_pos hc] at h
      obtain ⟨es, hes, hd⟩ := ih _ _ h
      refine ⟨.waitpid s :: es, ?_, by simpa [dispatches] using hd⟩
      rw [hes]
      simp [State.log]
    · rw [if_neg hc] at h
      simp only [Res.state?, Option.some.injEq] at h
      exact ⟨[.waitpid s], by simp [← h, State.log], rfl⟩

theorem launch_dispatches (os : OS) (st st' : State) (args : List CStr)
    (h : (ush_launch os st args).state? = some st') :
    ∃ es, st'.trace = st.trace ++ es ∧ dispatches es = [] := by
  rcases lt_trichotomy (ush_launch.pid os st args) 0 with hpid | hpid | hpid
  · rw [launch_fork_failed os st args hpid] at h
    simp only [Res.state?, Option.some.injEq] at h
    exact ⟨[.call_launch args, .fork (ush_launch.pid os st args), .perror "ush".toList],
      by simp [← h, State.log], rfl⟩
  · rcases launch_child os st args hpid with hs | hs
    · rw [hs] at h
      simp only [Res.state?, Option.some.injEq] at h
      exact ⟨[.call_launch args, .fork 0, .execvp (args.headD []) args],
        by simp [← h, State.log], rfl⟩
    · rw [hs] at h
      simp only [Res.state?, Option.some.injEq] at h
      exact ⟨[.call_launch args, .fork 0, .execvp (args.headD []) args,
        .perror "ush".toList], by simp [← h, State.log], rfl⟩
  · rw [launch_parent os st args hpid] at h
    obtain ⟨es, hes, hd⟩ := wait_dispatches os _ _ _ h
    refine ⟨.call_launch args :: .fork (ush_launch.pid os st args) :: es, ?_,
      by simpa [dispatches] using hd⟩
    rw [hes]
    simp [State.log]

theorem cd_dispatches (os : OS) (st st' : State) (args : List CStr)
    (h : (ush_cd os st args).state? = some st') :
    ∃ es, st'.trace = st.trace ++ es ∧ dispatches es = [] := by
  match args, h with
  | [], h =>
    simp only [ush_cd, Res.state?, Option.some.injEq] at h
    exact ⟨[.call_cd [], .stderr "ush: expected argument to \"cd\"\n".toList],
      by simp [← h, State.log], rfl⟩
  | [a], h =>
    simp only [ush_cd, Res.state?, Option.some.injEq] at h
    exact ⟨[.call_cd [a], .stderr "ush: expected argument to \"cd\"\n".toList],
      by simp [← h, State.log], rfl⟩
  | a :: path :: more, h =>
    cases hc : os.chdir (st.log (.call_cd (a :: path :: more))) path with
    | none =>
      simp only [ush_cd, hc, Res.state?, Option.some.injEq] at h
      exact ⟨[.call_cd (a :: path :: more), .chdir path false, .perror "ush".toList],
        by simp [← h, State.log], rfl⟩
    | some d =>
      simp only [ush_cd, hc, Res.state?, Option.some.injEq] at h
      exact ⟨[.call_cd (a :: path :: more), .chdir path true],
        by simp [← h, State.log], rfl⟩

theorem run_command_dispatches (os : OS) (st st' : State) (args : List CStr)
    (h : (ush_run_command os st args).state? = some st') :
    ∃ es, st'.trace = st.trace ++ es ∧ dispatches es = [args] := by
  have step : ∀ s : State, s.trace = (st.log (.call_run_command args)).trace →
      (∃ es, st'.trace = s.trace ++ es ∧ dispatches es = []) →
      ∃ es, st'.trace = st.trace ++ es ∧ dispatches es = [args] := by
    rintro s hs ⟨es, hes, hd⟩
    refine ⟨.call_run_command args :: es, ?_, by simp [dispatches, hd]⟩
    rw [hes, hs]
    simp [State.log]
  cases args with
  | nil =>
    rw [run_command_nil] at h
    simp only [Res.state?, Option.some.injEq] at h
    exact ⟨[.call_run_command []], by simp [← h, State.log], rfl⟩
  | cons arg0 rest =>
    by_cases hcd : arg0 = "cd".toList
    · subst hcd
      rw [run_command_cd] at h
      exact step _ rfl (cd_dispatches os _ _ _ h)
    · by_cases hhelp : arg0 = "help".toList
      · subst hhelp
        rw [run_command_help, help_eq] at h
        simp only [Res.state?, Option.some.injEq] at h
        refine step _ rfl ⟨.call_help ("help".toList :: rest) :: help_output, ?_, rfl⟩
        rw [← h]
        rfl
      · by_cases hexit : arg0 = "exit".toList
        · subst hexit
          rw [run_command_exit, exit_eq] at h
          simp only [Res.state?, Option.some.injEq] at h
          refine step _ rfl ⟨[.call_exit ("exit".toList :: rest)], ?_, rfl⟩
          rw [← h]
          rfl
        · have hext : arg0 ∉ internal_cmds := by
            simp only [internal_cmds, List.mem_cons, List.mem_singleton, List.not_mem_nil,
              or_false, not_or]
            exact ⟨hcd, hhelp, hexit⟩
          rw [run_command_external os st arg0 rest hext] at h
          exact step _ rfl (launch_dispatches os _ _ _ h)

theorem dispatch_segment_dispatches (os : OS) (st st' : State) (segment : CStr)
    (h : (dispatch_segment os st segment).state? = some st') :
    ∃ es, st'.trace = st.trace ++ es ∧
      (dispatches es = [split_ref segment] ∨
        (dispatches es = [] ∧ ∀ v s, dispatch_segment os st segment ≠ .ret v s)) := by
  unfold dispatch_segment at h ⊢
  rcases split_line_cases os st segment with hs | hs
  · rw [hs] at h ⊢
    simp only [Res.bind] at h ⊢
    obtain ⟨es, hes, hd⟩ := run_command_dispatches os _ _ _ h
    refine ⟨.call_split_line segment :: es, ?_, Or.inl (by simp [dispatches, hd])⟩
    rw [hes]
    simp [State.log]
  · rw [hs] at h ⊢
    simp only [Res.bind, Res.state?, Option.some.injEq] at h
    refine ⟨[.call_split_line segment, .stderr "ush: allocation error\n".toList],
      by simp [← h, State.log], Or.inr ⟨rfl, fun v s hc => by cases hc⟩⟩

theorem dispatch_segment_ret_dispatches (os : OS) (st st' : State) (segment : CStr) (v : Int)
    (h : dispatch_segment os st segment = .ret v st') :
    ∃ es, st'.trace = st.trace ++ es ∧ dispatches es = [split_ref segment] := by
  have hs : (dispatch_segment os st segment).state? = some st' := by rw [h]; rfl
  obtain ⟨es, hes, hd | ⟨_, hno⟩⟩ := dispatch_segment_dispatches os st st' segment hs
  · exact ⟨es, hes, hd⟩
  · exact absurd h (hno v st')

theorem chain_dispatches (os : OS) (st st' : State) (left right : CStr) (c : Int → Prop)
    [DecidablePred c]
    (h : ((dispatch_segment os st left).bind fun status st1 =>
      if c status then dispatch_segment os st1 right else .ret status st1).state? = some st') :
    ∃ es, st'.trace = st.trace ++ es ∧
      dispatches es <+: [split_ref left, split_ref right] := by
  rcases bind_state _ _ st' h with ⟨a, s, hleft, hk⟩ | ⟨_, hstate⟩
  · obtain ⟨es1, hes1, hd1⟩ := dispatch_segment_ret_dispatches os st s left a hleft
    by_cases hc : c a
    · rw [if_pos hc] at hk
      obtain ⟨es2, hes2, hd2⟩ := dispatch_segment_dispatches os s st' right hk
      refine ⟨es1 ++ es2, by rw [hes2, hes1, List.append_assoc], ?_⟩
      rw [dispatches_append, hd1]
      rcases hd2 with hd2 | ⟨hd2, _⟩
      · rw [hd2]
        exact List.prefix_refl _
      · rw [hd2]
        exact ⟨[split_ref right], rfl⟩
    · rw [if_neg hc] at hk
      simp only [Res.state?, Option.some.injEq] at hk
      subst hk
      exact ⟨es1, hes1, by rw [hd1]; exact ⟨[split_ref right], rfl⟩⟩
  · obtain ⟨es, hes, hd⟩ := dispatch_segment_dispatches os st st' left hstate
    refine ⟨es, hes, ?_⟩
    rcases hd with hd | ⟨hd, _⟩
    · rw [hd]; exact ⟨[split_ref right], rfl⟩
    · rw [hd]; exact List.nil_prefix

theorem prefix_pair_length {α : Type} (ops : List α) (a b : α) (h : ops <+: [a, b]) :
    ops.length ≤ 2 := by
  simpa using h.length_le

/-- C11: the right segment of a split is never split again.  For every line
`left ++ "&&" ++ right` split at its first "&&", and for every line
`left ++ "||" ++ right` without "&&" split at its first "||", whatever the
outcome of `ush_handle_logical_ops` the commands it dispatched are, in order, a
prefix of the two vectors: tokens of `left`, tokens of `right`; so at most two
commands are dispatched, and the right segment reaches `ush_run_command` as
the single vector of its tokens, further "&&" and "||" being ordinary tokens
of it.  For "a && b && c" the right-hand dispatch receives "b", "&&", "c". -/
theorem right_segment_not_resplit (os : OS) (st : State) (left right : CStr) :
    ((∀ j < left.length, ¬ "&&".toList <+: (left ++ "&&".toList ++ right).drop j) →
      ∀ st', (ush_handle_logical_ops os st (left ++ "&&".toList ++ right)).state? = some st' →
        dispatches (new_events st st') <+: [split_ref left, split_ref right] ∧
        (dispatches (new_events st st')).length ≤ 2) ∧
    (¬ "&&".toList <:+: left ++ "||".toList ++ right →
      (∀ j < left.length, ¬ "||".toList <+: (left ++ "||".toList ++ right).drop j) →
      ∀ st', (ush_handle_logical_ops os st (left ++ "||".toList ++ right)).state? = some st' →
        dispatches (new_events st st') <+: [split_ref left, split_ref right] ∧
        (dispatches (new_events st st')).length ≤ 2) ∧
    (∀ st1 : State, (∀ n, os.alloc (st1.log (.call_split_line right)) n = true) →
      dispatch_segment os st1 right =
        ush_run_command os (st1.log (.call_split_line right)) (split_ref right)) ∧
    split_ref " b && c".toList = ["b".toList, "&&".toList, "c".toList] ∧
    split_ref " b || c && d".toList =
      ["b".toList, "||".toList, "c".toList, "&&".toList, "d".toList] ∧
    (∀ op line : List Char, op <:+: line →
      ∃ l r, line = l ++ op ++ r ∧ ∀ j < l.length, ¬ op <+: (l ++ op ++ r).drop j) ∧
    ush_handle_logical_ops os st "a && b && c".toList =
      ((dispatch_segment os st "a ".toList).bind fun status st1 =>
        if status = CONTINUE then dispatch_segment os st1 " b && c".toList
        else .ret status st1) := by
  refine ⟨?_, ?_, fun st1 halloc => dispatch_segment_eq os st1 right halloc, by decide,
    by decide, ?_, handle_and_split os st "a ".toList " b && c".toList (by decide)⟩
  rotate_left 2
  · intro op line hin
    obtain ⟨l, r, hline, _, _, _, hf⟩ := strstr_split op line hin
    exact ⟨l, r, hline, by rw [← hline]; exact hf⟩
  · intro hfirst st' h
    rw [handle_and_split os st left right hfirst] at h
    obtain ⟨es, hes, hd⟩ := chain_dispatches os st st' left right (fun s => s = 1) h
    rw [new_events_of_trace st st' es hes]
    exact ⟨hd, prefix_pair_length _ _ _ hd⟩
  · intro hand hfirst st' h
    rw [handle_or_split os st left right hand hfirst] at h
    obtain ⟨es, hes, hd⟩ := chain_dispatches os st st' left right (fun s => s ≠ 1) h
    rw [new_events_of_trace st st' es hes]
    exact ⟨hd, prefix_pair_length _ _ _ hd⟩

/-- Witness for C11 in the sample environment: "a && b && c" dispatches the
two commands "a" and "b && c", the second with the operator as a token. -/
theorem right_segment_not_resplit_witness :
    dispatches (new_events sampleState (sampleState.logs [.call_split_line "a ".toList,
        .call_run_command ["a".toList], .call_launch ["a".toList],
        .fork 4242, .waitpid 4991, .waitpid 256,
        .call_split_line " b && c".toList,
        .call_run_command ["b".toList, "&&".toList, "c".toList],
        .call_launch ["b".toList, "&&".toList, "c".toList],
        .fork 4242, .waitpid 4991, .waitpid 256])) <+:
      [split_ref "a ".toList, split_ref " b && c".toList] ∧
    ush_handle_logical_ops sampleOS sampleState "a && b && c".toList =
      .ret CONTINUE (sampleState.logs [.call_split_line "a ".toList,
        .call_run_command ["a".toList], .call_launch ["a".toList],
        .fork 4242, .waitpid 4991, .waitpid 256,
        .call_split_line " b && c".toList,
        .call_run_command ["b".toList, "&&".toList, "c".toList],
        .call_launch ["b".toList, "&&".toList, "c".toList],
        .fork 4242, .waitpid 4991, .waitpid 256]) :=
  ⟨((right_segment_not_resplit sampleOS sampleState "a ".toList " b && c".toList).1
      (by decide) _ (by decide)).1,
   ((right_segment_not_resplit sampleOS sampleState "a ".toList
      " b && c".toList).2.2.2.2.2.2).trans (by decide)⟩

/-- C12: for every line that contains neither "&&" nor "||",
`ush_handle_logical_ops` is `ush_run_command` applied to the result of
`ush_split_line` on the whole line.  When the tokenizer's allocations succeed
exactly one command is dispatched, the vector of the tokens of the line; in
every case at most one is.  A single "&" or "|" is not an operator: it stays
inside a token or is a token of its own. -/
theorem plain_line_single_dispatch (os : OS) (st : State) (line : CStr)
    (hand : ¬ "&&".toList <:+: line) (hor : ¬ "||".toList <:+: line) :
    ush_handle_logical_ops os st line =
      ((ush_split_line os st line).bind fun args st1 => ush_run_command os st1 args) ∧
    ((∀ n, os.alloc (st.log (.call_split_line line)) n = true) →
      ush_handle_logical_ops os st line =
        ush_run_command os (st.log (.call_split_line line)) (split_ref line) ∧
      ∀ st', (ush_handle_logical_ops os st line).state? = some st' →
        dispatches (new_events st st') = [split_ref line]) ∧
    (∀ st', (ush_handle_logical_ops os st line).state? = some st' →
      (dispatches (new_events st st')).length ≤ 1) ∧
    ¬ "&&".toList <:+: "ls & | wc".toList ∧ ¬ "||".toList <:+: "ls & | wc".toList ∧
    split_ref "ls & | wc".toList = ["ls".toList, "&".toList, "|".toList, "wc".toList] ∧
    split_ref "a&b|c &".toList = ["a&b|c".toList, "&".toList] := by
  have heq := handle_plain_eq os st line ((strstr_none _ _).mpr hand) ((strstr_none _ _).mpr hor)
  refine ⟨heq, ?_, ?_, by decide, by decide, by decide, by decide⟩
  · intro halloc
    have hrun := dispatch_segment_eq os st line halloc
    refine ⟨heq.trans hrun, ?_⟩
    intro st' h
    rw [heq, hrun] at h
    obtain ⟨es, hes, hd⟩ := run_command_dispatches os _ _ _ h
    have htrace : st'.trace = st.trace ++ (.call_split_line line :: es) := by
      rw [hes]
      simp [State.log]
    rw [new_events_of_trace st st' _ htrace]
    simpa [dispatches] using hd
  · intro st' h
    rw [heq] at h
    obtain ⟨es, hes, hd⟩ := dispatch_segment_dispatches os st st' line h
    rw [new_events_of_trace st st' es hes]
    rcases hd with hd | ⟨hd, _⟩ <;> simp [hd]

/-- Witness for C12 in the sample environment: "ls & | wc" is dispatched once,
as the vector "ls", "&", "|", "wc". -/
theorem plain_line_single_dispatch_witness :
    ush_handle_logical_ops sampleOS sampleState "ls & | wc".toList =
      ush_run_command sampleOS (sampleState.log (.call_split_line "ls & | wc".toList))
        ["ls".toList, "&".toList, "|".toList, "wc".toList] :=
  ((plain_line_single_dispatch sampleOS sampleState "ls & | wc".toList (by decide)
    (by decide)).2.1 (fun _ => rfl)).1

/-! ### Buffer bounds of `ush_split_line` -/

theorem split_loop_no_fault (os : OS) (st : State) :
    ∀ (fuel : Nat) (token : Option (CStr × List Char)) (bufsize position : Nat)
      (tokens : List CStr) (s : State), position < bufsize →
      ush_split_line.loop os st fuel token bufsize position tokens ≠ .fault s := by
  intro fuel
  induction fuel with
  | zero =>
    intro token bufsize position tokens s hp h
    cases token with
    | none => simp [ush_split_line.loop, hp] at h
    | some tr => simp [ush_split_line.loop] at h
  | succ fuel ih =>
    intro token bufsize position tokens s hp h
    cases token with
    | none => simp [ush_split_line.loop, hp] at h
    | some tr =>
      obtain ⟨tok, rest⟩ := tr
      simp only [ush_split_line.loop, hp, if_true] at h
      by_cases hge : position + 1 ≥ bufsize
      · rw [if_pos hge] at h
        cases ha : os.alloc st (bufsize + USH_TOK_BUFSIZE) with
        | false => simp [ha] at h
        | true =>
          simp only [ha, if_true] at h
          exact ih _ _ _ _ s (by simp [USH_TOK_BUFSIZE]; omega) h
      · rw [if_neg hge] at h
        exact ih _ _ _ _ s (by omega) h

theorem split_line_no_fault (os : OS) (st : State) (line : CStr) (s : State) :
    ush_split_line os st line ≠ .fault s := by
  rcases split_line_cases os st line with h | h <;> rw [h] <;> intro hc <;> cases hc

theorem split_ref_tokens_line (k : Nat) :
    split_ref (tokens_line k) = List.replicate k "a".toList := by
  induction k with
  | zero => exact split_ref_nil
  | succ k ih =>
    have hline : tokens_line (k + 1) = 'a' :: ' ' :: tokens_line k := by
      simp [tokens_line, List.replicate_succ]
    have ha : isDelim 'a' = false := by decide
    have hb : isDelim ' ' = true := by decide
    rw [hline, split_ref_token 'a' _ ha]
    simp only [List.takeWhile, List.dropWhile, ha, hb, Bool.not_false, Bool.not_true,
      List.drop_succ_cons, List.drop_zero]
    rw [ih, List.replicate_succ]
    rfl

theorem split_loop_step (os : OS) (st : State) (fuel : Nat) (tok : CStr) (rest : List Char)
    (bufsize position : Nat) (tokens : List CStr) (hp : position < bufsize) :
    ush_split_line.loop os st (fuel + 1) (some (tok, rest)) bufsize position tokens =
        .exit EXIT_FAILURE (st.log (.stderr "ush: allocation error\n".toList)) ∨
    ∃ bufsize', position + 1 < bufsize' ∧
      (bufsize' = bufsize ∨ bufsize' = position + 1 + USH_TOK_BUFSIZE) ∧
      ush_split_line.loop os st (fuel + 1) (some (tok, rest)) bufsize position tokens =
        ush_split_line.loop os st fuel (strtok rest USH_TOK_DELIM) bufsize' (position + 1)
          (tokens ++ [tok]) := by
  simp only [ush_split_line.loop, hp, if_true]
  by_cases hge : position + 1 ≥ bufsize
  · rw [if_pos hge]
    cases ha : os.alloc st (bufsize + USH_TOK_BUFSIZE) with
    | false => left; simp
    | true =>
      right
      exact ⟨bufsize + USH_TOK_BUFSIZE, by simp [USH_TOK_BUFSIZE]; omega, Or.inr (by omega),
        by simp⟩
  · rw [if_neg hge]
    right
    exact ⟨bufsize, by omega, Or.inl rfl, rfl⟩

/-- C15: in `ush_split_line` no store `tokens[position]`, the final store of
the NULL terminator included, is ever outside the current `bufsize`: for every
environment and every line the call never ends in an out-of-bounds store,
because `position < bufsize` holds at the first iteration (0 < 64) and every
iteration that stores a token either exits on a failed `realloc` or goes on
with `position + 1` below the new `bufsize`, which has grown, by 64, only when
the vector was full.  When the allocations succeed the
vector returned holds exactly the tokens of the line; a line of `k` tokens,
for every `k` (63, 64, 127 and 128 included), gives exactly `k` tokens. -/
theorem ush_split_line_bounds (os : OS) (st : State) (line : CStr)
    (halloc : ∀ n, os.alloc (st.log (.call_split_line line)) n = true) :
    ush_split_line os st line = .ret (split_ref line) (st.log (.call_split_line line)) ∧
    (∀ (os' : OS) (line' : CStr) (s : State), ush_split_line os' st line' ≠ .fault s) ∧
    (∀ (os' : OS) (fuel : Nat) (token : Option (CStr × List Char)) (bufsize position : Nat)
      (tokens : List CStr) (s : State), position < bufsize →
      ush_split_line.loop os' st fuel token bufsize position tokens ≠ .fault s) ∧
    (∀ (os' : OS) (fuel : Nat) (tok : CStr) (rest : List Char) (bufsize position : Nat)
      (tokens : List CStr), position < bufsize →
      ush_split_line.loop os' st (fuel + 1) (some (tok, rest)) bufsize position tokens =
          .exit EXIT_FAILURE (st.log (.stderr "ush: allocation error\n".toList)) ∨
      ∃ bufsize', position + 1 < bufsize' ∧
        (bufsize' = bufsize ∨ bufsize' = position + 1 + USH_TOK_BUFSIZE) ∧
        ush_split_line.loop os' st (fuel + 1) (some (tok, rest)) bufsize position tokens =
          ush_split_line.loop os' st fuel (strtok rest USH_TOK_DELIM) bufsize' (position + 1)
            (tokens ++ [tok])) ∧
    (∀ k : Nat, split_ref (tokens_line k) = List.replicate k "a".toList ∧
      (split_ref (tokens_line k)).length = k) := by
  refine ⟨split_line_eq os st line halloc, fun os' line' s => split_line_no_fault os' st line' s,
    fun os' fuel token bufsize position tokens s hp =>
      split_loop_no_fault os' st fuel token bufsize position tokens s hp,
    fun os' fuel tok rest bufsize position tokens hp =>
      split_loop_step os' st fuel tok rest bufsize position tokens hp, ?_⟩
  intro k
  rw [split_ref_tokens_line]
  exact ⟨rfl, List.length_replicate _ _⟩

/-- Witness for C15: lines of 63, 64, 127 and 128 tokens are tokenized in the
sample environment into vectors of 63, 64, 127 and 128 tokens. -/
theorem ush_split_line_bounds_witness :
    ush_split_line sampleOS sampleState (tokens_line 63) =
      .ret (List.replicate 63 "a".toList)
        (sampleState.log (.call_split_line (tokens_line 63))) ∧
    ush_split_line sampleOS sampleState (tokens_line 64) =
      .ret (List.replicate 64 "a".toList)
        (sampleState.log (.call_split_line (tokens_line 64))) ∧
    ush_split_line sampleOS sampleState (tokens_line 127) =
      .ret (List.replicate 127 "a".toList)
        (sampleState.log (.call_split_line (tokens_line 127))) ∧
    ush_split_line sampleOS sampleState (tokens_line 128) =
      .ret (List.replicate 128 "a".toList)
        (sampleState.log (.call_split_line (tokens_line 128))) :=
  ⟨((ush_split_line_bounds sampleOS sampleState (tokens_line 63) (fun _ => rfl)).2.2.2.2
      63).1 ▸ (ush_split_line_bounds sampleOS sampleState (tokens_line 63) (fun _ => rfl)).1,
   ((ush_split_line_bounds sampleOS sampleState (tokens_line 64) (fun _ => rfl)).2.2.2.2
      64).1 ▸ (ush_split_line_bounds sampleOS sampleState (tokens_line 64) (fun _ => rfl)).1,
   ((ush_split_line_bounds sampleOS sampleState (tokens_line 127) (fun _ => rfl)).2.2.2.2
      127).1 ▸ (ush_split_line_bounds sampleOS sampleState (tokens_line 127) (fun _ => rfl)).1,
   ((ush_split_line_bounds sampleOS sampleState (tokens_line 128) (fun _ => rfl)).2.2.2.2
      128).1 ▸ (ush_split_line_bounds sampleOS sampleState (tokens_line 128)
        (fun _ => rfl)).1⟩

/-! ### The wait loop with failing `waitpid` calls -/

theorem launch_rc_wait_agrees (os : OS) :
    ∀ (l : List Int) (status : Int) (st : State),
      ush_launch_rc.wait os (l.map some) status st = ush_launch.wait os l st := by
  intro l
  induction l with
  | nil => intro status st; rfl
  | cons s l ih =>
    intro status st
    simp only [List.map_cons, ush_launch_rc.wait, ush_launch.wait, ih]

theorem launch_rc_agrees (os : OS) (wenv : State → WaitEnv) (st : State) (args : List CStr)
    (h : ∀ s, (wenv s).calls = (os.waitpid s).map some) :
    ush_launch_rc os wenv st args = ush_launch os st args := by
  simp only [ush_launch_rc, ush_launch, h, launch_rc_wait_agrees]

theorem launch_rc_wait_value (os : OS) :
    ∀ (calls : List (Option Int)) (status : Int) (st : State) (v : Int) (st' : State),
      ush_launch_rc.wait os calls status st = .ret v st' → v = 1 := by
  intro calls
  induction calls with
  | nil => intro status st v st' h; cases h
  | cons call calls ih =>
    intro status st v st' h
    cases call with
    | some s =>
      simp only [ush_launch_rc.wait] at h
      split at h
      · exact ih _ _ _ _ h
      · injection h with hv _
        exact hv.symm
    | none =>
      simp only [ush_launch_rc.wait] at h
      split at h
      · exact ih _ _ _ _ h
      · injection h with hv _
        exact hv.symm

theorem launch_rc_wait_failed (os : OS) (later : List (Option Int)) (status : Int) (st : State)
    (ht : os.terminal status = true) :
    ush_launch_rc.wait os (none :: later) status st = .ret 1 (st.log .waitpid_failed) := by
  simp only [OS.terminal, Bool.or_eq_true] at ht
  rcases ht with h | h <;> simp [ush_launch_rc.wait, h]

/-- C13, the defect: `ush_launch` ignores what `waitpid` returns (main.c:92) and
tests a `status` it never initialised (main.c:80).  In the sample environment,
when the first `waitpid` call on the child of "ls" fails and the uninitialised
`status` holds 0, `ush_launch` returns continue after that one failed call: no
wait status reporting exit or termination by a signal was ever delivered.  When
a stopped status is followed by failing calls, the stale status keeps the loop
going although no new status arrives. -/
theorem ush_launch_returns_without_status :
    ush_launch_rc sampleOS failingWait sampleState ["ls".toList] =
      .ret CONTINUE (sampleState.logs [.call_launch ["ls".toList], .fork 4242,
        .waitpid_failed]) ∧
    (failingWait (sampleState.logs [.call_launch ["ls".toList], .fork 4242])).calls =
      [none] ∧
    ush_launch_rc sampleOS stoppedThenFailing sampleState ["ls".toList] =
      .hang (sampleState.logs [.call_launch ["ls".toList], .fork 4242, .waitpid 4991,
        .waitpid_failed, .waitpid_failed]) := by
  refine ⟨by decide, rfl, by decide⟩

/-! ### `ush_read_input` with 32-bit counters -/

theorem wrap_int_id (x : Int) (h0 : -2147483648 ≤ x) (h1 : x < 2147483648) :
    wrap_int x = x := by
  unfold wrap_int
  omega

theorem to_size_t_nat (n : Nat) (h : n < 18446744073709551616) : to_size_t (n : Int) = n := by
  unfold to_size_t
  omega

theorem read_int_loop_char (os : OS) (st : State) (c : Char) (input : List Char)
    (bufsize position : Int) (buffer : List Char) (hc : c ≠ '\n')
    (h0 : 0 ≤ position) (hp : position < bufsize) :
    ush_read_input_int.loop os st (c :: input) bufsize position buffer =
      if wrap_int (position + 1) ≥ bufsize then
        if os.alloc st (to_size_t (wrap_int (bufsize + USH_BUFSIZE))) then
          ush_read_input_int.loop os st input (wrap_int (bufsize + USH_BUFSIZE))
            (wrap_int (position + 1)) (buffer ++ [c])
        else .exit EXIT_FAILURE (st.log (.stderr "ush: allocation error\n".toList))
      else ush_read_input_int.loop os st input bufsize (wrap_int (position + 1))
        (buffer ++ [c]) := by
  simp only [ush_read_input_int.loop, hc, if_false, h0, hp, and_self, if_true]

theorem read_int_loop_prefix (os : OS) (st : State)
    (halloc : ∀ n ≤ 2147483647, os.alloc st n = true) (input : List Char) :
    ∀ (l0 buffer : List Char) (p : Nat), '\n' ∉ l0 → p + l0.length < 2147482624 →
      ush_read_input_int.loop os st (l0 ++ input)
          ((1024 * (p / 1024 + 1) : Nat) : Int) (p : Int) buffer =
        ush_read_input_int.loop os st input
          ((1024 * ((p + l0.length) / 1024 + 1) : Nat) : Int) ((p + l0.length : Nat) : Int)
          (buffer ++ l0) := by
  intro l0
  induction l0 with
  | nil =>
    intro buffer p _ _
    simp
  | cons c l0 ih =>
    intro buffer p hnl hlen
    have hc : c ≠ '\n' := fun h => hnl (by simp [h])
    have hl : '\n' ∉ l0 := fun h => hnl (by simp [h])
    simp only [List.length_cons] at hlen
    have hpos : wrap_int ((p : Int) + 1) = ((p + 1 : Nat) : Int) := by
      rw [wrap_int_id] <;> push_cast <;> omega
    rw [List.cons_append, read_int_loop_char os st c _ _ _ _ hc (by omega) (by omega), hpos]
    have hnext := ih (buffer ++ [c]) (p + 1) hl (by omega)
    have hsum : p + 1 + l0.length = p + (l0.length + 1) := by omega
    rw [hsum] at hnext
    by_cases hge : ((p + 1 : Nat) : Int) ≥ ((1024 * (p / 1024 + 1) : Nat) : Int)
    · rw [if_pos hge]
      have hgrow : wrap_int (((1024 * (p / 1024 + 1) : Nat) : Int) + (USH_BUFSIZE : Nat)) =
          ((1024 * ((p + 1) / 1024 + 1) : Nat) : Int) := by
        rw [wrap_int_id] <;> simp only [USH_BUFSIZE] <;> push_cast <;> omega
      rw [hgrow, to_size_t_nat _ (by omega), halloc _ (by omega), if_pos rfl]
      simpa using hnext
    · rw [if_neg hge]
      have hsame : 1024 * (p / 1024 + 1) = 1024 * ((p + 1) / 1024 + 1) := by omega
      rw [hsame]
      simpa using hnext

theorem read_int_loop_eq (os : OS) (st : State) (rest : List Char) :
    ∀ (l buffer : List Char) (p b : Nat), '\n' ∉ l → p < b → b ≤ p + 1024 →
      p + l.length < 2147482624 →
      ush_read_input_int.loop os st (l ++ '\n' :: rest) (b : Int) (p : Int) buffer =
        ush_read_input.loop os st (l ++ '\n' :: rest) b p buffer := by
  intro l
  induction l with
  | nil =>
    intro buffer p b _ hp _ _
    have hp' : (0 : Int) ≤ (p : Int) ∧ (p : Int) < (b : Int) := ⟨by omega, by omega⟩
    simp only [List.nil_append, ush_read_input_int.loop, ush_read_input.loop, hp', hp, and_self,
      if_true]
  | cons c l ih =>
    intro buffer p b hnl hp hb hlen
    have hc : c ≠ '\n' := fun h => hnl (by simp [h])
    have hl : '\n' ∉ l := fun h => hnl (by simp [h])
    simp only [List.length_cons] at hlen
    have hpos : wrap_int ((p : Int) + 1) = ((p + 1 : Nat) : Int) := by
      rw [wrap_int_id] <;> push_cast <;> omega
    rw [List.cons_append, read_int_loop_char os st c _ _ _ _ hc (by omega) (by omega), hpos,
      read_loop_char os st c _ _ _ _ hc hp]
    by_cases hge : p + 1 ≥ b
    · have hge' : ((p + 1 : Nat) : Int) ≥ (b : Int) := by omega
      have hgrow : wrap_int ((b : Int) + (USH_BUFSIZE : Nat)) = ((b + USH_BUFSIZE : Nat) : Int) := by
        rw [wrap_int_id] <;> simp only [USH_BUFSIZE] <;> push_cast <;> omega
      rw [if_pos hge', if_pos hge, hgrow, to_size_t_nat _ (by simp only [USH_BUFSIZE]; omega)]
      cases ha : os.alloc st (b + USH_BUFSIZE) with
      | false => rfl
      | true =>
        simp only [if_true]
        exact ih (buffer ++ [c]) (p + 1) (b + USH_BUFSIZE) hl
          (by simp only [USH_BUFSIZE]; omega) (by simp only [USH_BUFSIZE]; omega) (by omega)
    · have hge' : ¬ ((p + 1 : Nat) : Int) ≥ (b : Int) := by omega
      rw [if_neg hge', if_neg hge]
      exact ih (buffer ++ [c]) (p + 1) b hl (by omega) (by omega) (by omega)

theorem read_input_int_eq (os : OS) (st : State) (l rest : List Char) (hnl : '\n' ∉ l)
    (hlen : l.length < 2147482624) :
    ush_read_input_int os st (l ++ '\n' :: rest) = ush_read_input os st (l ++ '\n' :: rest) := by
  unfold ush_read_input_int ush_read_input
  rw [to_size_t_nat _ (by simp only [USH_BUFSIZE]; omega)]
  cases ha : os.alloc st USH_BUFSIZE with
  | false => rfl
  | true =>
    simp only [if_true]
    have := read_int_loop_eq os st rest l [] 0 USH_BUFSIZE hnl (by simp [USH_BUFSIZE])
      (by simp [USH_BUFSIZE]) (by omega)
    simpa using this

theorem read_int_line (os : OS) (st : State) (halloc : ∀ n ≤ 2147483647, os.alloc st n = true)
    (l rest : List Char) (hnl : '\n' ∉ l) (hlen : l.length < 2147482624) :
    ush_read_input_int os st (l ++ '\n' :: rest) = .ret (cstr l, rest) st := by
  unfold ush_read_input_int
  rw [to_size_t_nat _ (by simp only [USH_BUFSIZE]; omega),
    halloc _ (by simp only [USH_BUFSIZE]; omega), if_pos rfl]
  have h := read_int_loop_prefix os st halloc ('\n' :: rest) l [] 0 hnl (by omega)
  have h1 : ((1024 * (0 / 1024 + 1) : Nat) : Int) = ((USH_BUFSIZE : Nat) : Int) := by
    simp [USH_BUFSIZE]
  rw [h1] at h
  simp only [Nat.cast_zero] at h
  rw [h]
  have hp : (0 : Int) ≤ ((0 + l.length : Nat) : Int) ∧
      ((0 + l.length : Nat) : Int) < ((1024 * ((0 + l.length) / 1024 + 1) : Nat) : Int) :=
    ⟨by omega, by omega⟩
  simp only [ush_read_input_int.loop, hp, and_self, if_true, List.nil_append, cstr_append_nul]

theorem read_int_overflow (os : OS) (st : State)
    (halloc : ∀ n ≤ 2147483647, os.alloc st n = true) (l0 rest : List Char) (c : Char)
    (hnl : '\n' ∉ l0) (hc : c ≠ '\n') (hlen : l0.length = 2147482623) :
    ush_read_input_int os st (l0 ++ c :: '\n' :: rest) =
      if os.alloc st 18446744071562067968 then .fault st
      else .exit EXIT_FAILURE (st.log (.stderr "ush: allocation error\n".toList)) := by
  unfold ush_read_input_int
  rw [to_size_t_nat _ (by simp only [USH_BUFSIZE]; omega),
    halloc _ (by simp only [USH_BUFSIZE]; omega), if_pos rfl]
  have h := read_int_loop_prefix os st halloc (c :: '\n' :: rest) l0 [] 0 hnl (by omega)
  have h1 : ((1024 * (0 / 1024 + 1) : Nat) : Int) = ((USH_BUFSIZE : Nat) : Int) := by
    simp [USH_BUFSIZE]
  rw [h1] at h
  simp only [Nat.cast_zero] at h
  rw [h, hlen]
  have hb : ((1024 * ((0 + 2147482623) / 1024 + 1) : Nat) : Int) = 2147482624 := by norm_num
  have hp : ((0 + 2147482623 : Nat) : Int) = 2147482623 := by norm_num
  rw [hb, hp, read_int_loop_char os st c _ _ _ _ hc (by norm_num) (by norm_num)]
  have hw1 : wrap_int (2147482623 + 1) = 2147482624 := by
    rw [wrap_int_id] <;> norm_num
  have hw2 : wrap_int (2147482624 + (USH_BUFSIZE : Nat)) = -2147483648 := by
    simp only [USH_BUFSIZE, wrap_int]
    norm_num
  have hs : to_size_t (-2147483648) = 18446744071562067968 := by
    simp only [to_size_t]
    norm_num
    rfl
  rw [hw1, hw2, hs, if_pos (le_refl _)]
  cases ha : os.alloc st 18446744071562067968 with
  | false => rfl
  | true =>
    simp only [if_true]
    have hno : ¬ ((0 : Int) ≤ 2147482624 ∧ (2147482624 : Int) < -2147483648) := by norm_num
    simp only [ush_read_input_int.loop, hno, if_false, if_true]

theorem read_int_loop_step (os : OS) (st : State) (c : Char) (input : List Char)
    (bufsize position : Int) (buffer : List Char) (hc : c ≠ '\n') (h0 : 0 ≤ position)
    (hp : position < bufsize) (hb : bufsize + 1024 < 2147483648) :
    ush_read_input_int.loop os st (c :: input) bufsize position buffer =
        .exit EXIT_FAILURE (st.log (.stderr "ush: allocation error\n".toList)) ∨
    ∃ bufsize', position + 1 < bufsize' ∧
      (bufsize' = bufsize ∨ bufsize' = position + 1 + 1024) ∧
      ush_read_input_int.loop os st (c :: input) bufsize position buffer =
        ush_read_input_int.loop os st input bufsize' (position + 1) (buffer ++ [c]) := by
  rw [read_int_loop_char os st c input bufsize position buffer hc h0 hp,
    wrap_int_id (position + 1) (by omega) (by omega)]
  by_cases hge : position + 1 ≥ bufsize
  · have hgrow : wrap_int (bufsize + (USH_BUFSIZE : Nat)) = bufsize + 1024 := by
      rw [wrap_int_id] <;> simp only [USH_BUFSIZE] <;> push_cast <;> omega
    rw [if_pos hge, hgrow]
    cases ha : os.alloc st (to_size_t (bufsize + 1024)) with
    | false => left; simp
    | true =>
      right
      exact ⟨bufsize + 1024, by omega, Or.inr (by omega), by simp⟩
  · rw [if_neg hge]
    right
    exact ⟨bufsize, by omega, Or.inl rfl, rfl⟩

/-- C14: for every input whose first newline is preceded by the characters `l`
(none of them NUL), whatever their number below `2^31 - 1024 = 2147482624`
(1024 and its multiples included), `ush_read_input`, with its `int` counters
taken as the 32-bit integers they are, returns, provided the allocations of at
most `INT_MAX` bytes succeed, exactly `l`, in order and without the newline, and
leaves the input after the newline unread.  On such an input no store
`buffer[position]`, the final terminator included, is outside the current
`bufsize`, whatever the allocator answers; the counters never wrap, so that the
run is the one of the loop with unbounded counters; and every iteration that
stores a character while `bufsize + 1024` still fits an `int` either exits on a
failed `realloc` or goes on with `position + 1` below the new `bufsize`, which
has grown, by 1024, only when the buffer was full. -/
theorem ush_read_input_int_line (os : OS) (st : State) (l rest : List Char)
    (hnl : '\n' ∉ l) (hnul : '\x00' ∉ l) (hlen : l.length < 2147482624)
    (halloc : ∀ n ≤ 2147483647, os.alloc st n = true) :
    ush_read_input_int os st (l ++ '\n' :: rest) = .ret (l, rest) st ∧
    (∀ (os' : OS) (s : State), ush_read_input_int os' st (l ++ '\n' :: rest) ≠ .fault s) ∧
    (∀ os' : OS, ush_read_input_int os' st (l ++ '\n' :: rest) =
      ush_read_input os' st (l ++ '\n' :: rest)) ∧
    (∀ (os' : OS) (c : Char) (input : List Char) (bufsize position : Int)
      (buffer : List Char), c ≠ '\n' → 0 ≤ position → position < bufsize →
      bufsize + 1024 < 2147483648 →
      ush_read_input_int.loop os' st (c :: input) bufsize position buffer =
          .exit EXIT_FAILURE (st.log (.stderr "ush: allocation error\n".toList)) ∨
      ∃ bufsize', position + 1 < bufsize' ∧
        (bufsize' = bufsize ∨ bufsize' = position + 1 + 1024) ∧
        ush_read_input_int.loop os' st (c :: input) bufsize position buffer =
          ush_read_input_int.loop os' st input bufsize' (position + 1) (buffer ++ [c])) := by
  refine ⟨?_, fun os' s => ?_, fun os' => read_input_int_eq os' st l rest hnl hlen,
    fun os' c input bufsize position buffer hc h0 hp hb =>
      read_int_loop_step os' st c input bufsize position buffer hc h0 hp hb⟩
  · rw [read_int_line os st halloc l rest hnl hlen, cstr_eq_self l hnul]
  · rw [read_input_int_eq os' st l rest hnl hlen]
    exact read_input_no_fault os' st _ s

/-- Witness for C14: lines of 1023, 1024, 1025 and 2048 characters are returned
whole, in the sample environment and under an allocator that refuses requests
above `PTRDIFF_MAX`. -/
theorem ush_read_input_int_line_witness :
    ush_read_input_int sampleOS sampleState (List.replicate 1023 'a' ++ '\n' :: "ls\n".toList) =
      .ret (List.replicate 1023 'a', "ls\n".toList) sampleState ∧
    ush_read_input_int sampleOS sampleState (List.replicate 1024 'a' ++ '\n' :: "ls\n".toList) =
      .ret (List.replicate 1024 'a', "ls\n".toList) sampleState ∧
    ush_read_input_int limitedOS sampleState (List.replicate 1025 'a' ++ '\n' :: "ls\n".toList) =
      .ret (List.replicate 1025 'a', "ls\n".toList) sampleState ∧
    ush_read_input_int limitedOS sampleState (List.replicate 2048 'a' ++ '\n' :: "ls\n".toList) =
      .ret (List.replicate 2048 'a', "ls\n".toList) sampleState :=
  ⟨(ush_read_input_int_line sampleOS sampleState (List.replicate 1023 'a') "ls\n".toList
      (fun h => absurd (List.eq_of_mem_replicate h) (by decide))
      (fun h => absurd (List.eq_of_mem_replicate h) (by decide))
      (by rw [List.length_replicate]; decide) (fun _ _ => rfl)).1,
   (ush_read_input_int_line sampleOS sampleState (List.replicate 1024 'a') "ls\n".toList
      (fun h => absurd (List.eq_of_mem_replicate h) (by decide))
      (fun h => absurd (List.eq_of_mem_replicate h) (by decide))
      (by rw [List.length_replicate]; decide) (fun _ _ => rfl)).1,
   (ush_read_input_int_line limitedOS sampleState (List.replicate 1025 'a') "ls\n".toList
      (fun h => absurd (List.eq_of_mem_replicate h) (by decide))
      (fun h => absurd (List.eq_of_mem_replicate h) (by decide))
      (by rw [List.length_replicate]; decide) (fun _ hn => decide_eq_true (by omega))).1,
   (ush_read_input_int_line limitedOS sampleState (List.replicate 2048 'a') "ls\n".toList
      (fun h => absurd (List.eq_of_mem_replicate h) (by decide))
      (fun h => absurd (List.eq_of_mem_replicate h) (by decide))
      (by rw [List.length_replicate]; decide) (fun _ hn => decide_eq_true (by omega))).1⟩

/-- Counterexample to C14: on a line of `2^31 - 1024 = 2147482624` characters
`a` followed by a newline the line is not returned.  After the character at
index 2147482623 is stored, `position` reaches `bufsize = 2147482624` and
`bufsize += 1024` leaves the range of `int`: `realloc` is asked for
`(size_t)(-2147483648) = 18446744071562067968` bytes.  An allocator that grants
every request leaves `bufsize` negative and the terminator store at index
2147482624 is not below it; an allocator that refuses requests above
`PTRDIFF_MAX`, while granting every request of at most `INT_MAX` bytes, makes
the shell exit with "ush: allocation error". -/
theorem long_line_not_returned :
    ush_read_input_int sampleOS sampleState (List.replicate 2147482624 'a' ++ ['\n']) =
      .fault sampleState ∧
    ush_read_input_int limitedOS sampleState (List.replicate 2147482624 'a' ++ ['\n']) =
      .exit EXIT_FAILURE (sampleState.log (.stderr "ush: allocation error\n".toList)) ∧
    ush_read_input_int limitedOS sampleState (List.replicate 2147482624 'a' ++ ['\n']) ≠
      .ret (List.replicate 2147482624 'a', []) sampleState ∧
    limitedOS.alloc sampleState 2147483647 = true ∧
    wrap_int (2147482624 + 1024) = -2147483648 ∧
    to_size_t (-2147483648) = 18446744071562067968 := by
  have e : List.replicate 2147482624 'a' ++ ['\n'] =
      List.replicate 2147482623 'a' ++ 'a' :: '\n' :: [] := by
    have h : List.replicate 2147482624 'a' = List.replicate 2147482623 'a' ++ ['a'] :=
      List.replicate_succ' (n := 2147482623) (a := 'a')
    rw [h, List.append_assoc, List.singleton_append]
  have hmem : '\n' ∉ List.replicate 2147482623 'a' :=
    fun h => absurd (List.eq_of_mem_replicate h) (by decide)
  have hlim : ush_read_input_int limitedOS sampleState
      (List.replicate 2147482624 'a' ++ ['\n']) =
      .exit EXIT_FAILURE (sampleState.log (.stderr "ush: allocation error\n".toList)) := by
    rw [e, read_int_overflow limitedOS sampleState (fun _ hn => decide_eq_true (by omega)) _ []
      'a' hmem (by decide) (List.length_replicate _ _)]
    rfl
  refine ⟨?_, hlim, ?_, rfl, ?_, ?_⟩
  · rw [e, read_int_overflow sampleOS sampleState (fun _ _ => rfl) _ [] 'a' hmem (by decide)
      (List.length_replicate _ _)]
    rfl
  · rw [hlim]
    exact fun h => Res.noConfusion h
  · simp only [wrap_int]
    norm_num
  · simp only [to_size_t]
    norm_num
    rfl

end Ush
